import Mathlib

/-!
Verification of the nested-diagram resolution engine of the repository
(`src/services/nestedDiagramProcessor.ts`).

The engine is embedded shallowly: JavaScript strings become `List Char`,
`Map` becomes an insertion-ordered association list, the two regular
expressions of the source are implemented as deterministic scanners that
mimic the backtracking behaviour of the JS regex engine on the two fixed
patterns, and the recursive resolution pass is written with an explicit
fuel argument (the source recursion is bounded by the hard depth cap).
All definitions are executable so that concrete runs can be settled by
`decide`.  ASCII semantics are assumed for `toLowerCase`/whitespace,
matching every input exercised here.
-/

namespace NDP

/-- Strings of the embedded program: JS strings as lists of characters. -/
abbrev Str := List Char

/-- Coercion from Lean string literals to embedded strings. -/
def str (s : String) : Str := s.data

/-- ASCII lower-casing, the fragment of JS `toLowerCase` used by the source. -/
def jsToLower (c : Char) : Char :=
  if 'A' ≤ c ∧ c ≤ 'Z' then Char.ofNat (c.toNat + 32) else c

/-- Lower-case a whole string (JS `String.prototype.toLowerCase`). -/
def lowerStr (s : Str) : Str := s.map jsToLower

/-- JS whitespace (ASCII fragment) used by `String.prototype.trim`. -/
def isWs (c : Char) : Bool :=
  c = ' ' ∨ c = '\n' ∨ c = '\t' ∨ c = '\r' ∨ c = '\x0b' ∨ c = '\x0c'

/-- JS `String.prototype.trim`. -/
def jsTrim (s : Str) : Str :=
  ((s.dropWhile isWs).reverse.dropWhile isWs).reverse

/-- The JS word-character class `\w` = `[A-Za-z0-9_]`. -/
def isWordChar (c : Char) : Bool :=
  ('a' ≤ c ∧ c ≤ 'z') ∨ ('A' ≤ c ∧ c ≤ 'Z') ∨ ('0' ≤ c ∧ c ≤ '9') ∨ c = '_'

/-- The character class `[\w-]` of both source regexes. -/
def isWordDash (c : Char) : Bool := isWordChar c ∨ c = '-'

/-- Strip a literal pattern from the front of a string; `none` if it is not
there.  Models matching a literal piece of a regex at the current point. -/
def stripLit : Str → Str → Option Str
  | [], s => some s
  | _ :: _, [] => none
  | p :: ps, c :: cs => if c = p then stripLit ps cs else none

/-- Split at the first occurrence of `pat` (the lazy `([\s\S]*?)pat` idiom):
returns the text before the first occurrence and the text after it. -/
def splitOnFirst (pat : Str) : Str → Option (Str × Str)
  | [] => match stripLit pat [] with
          | some rem => some ([], rem)
          | none => none
  | c :: rest =>
    match stripLit pat (c :: rest) with
    | some rem => some ([], rem)
    | none =>
      match splitOnFirst pat rest with
      | some (pre, rem) => some (c :: pre, rem)
      | none => none

/-- Whether `pat` occurs as a substring (used only in statements). -/
def containsSub (pat s : Str) : Bool := (splitOnFirst pat s).isSome

/-- JS `Array.prototype.includes` on strings. -/
def jsIncludes (l : List Str) (x : Str) : Bool := l.contains x

/-- JS `Array.prototype.indexOf` on strings (first index, `-1` never needed
by the source at the one call site, which is guarded by membership). -/
def jsIndexOf (l : List Str) (x : Str) : Nat := l.takeWhile (· ≠ x) |>.length

/-- Does `s` start with the literal `p`? -/
def startsWithStr (p s : Str) : Bool := (stripLit p s).isSome

/-! ## The two regular expressions of the source, as deterministic scanners

The source uses
`/\{\{diagram:([^:]+):([\w-]+)\}\}/g` (nested references) and
`/---diagram:([^:]+):([\w-]+)---([\s\S]*?)---end---/g` (definitions).
On these patterns the JS backtracking engine is deterministic:

* `([^:]+)` cannot cross a colon, so the only candidate for the first
  capture is the maximal run of non-colon characters, which must be
  nonempty and followed by a literal `:`;
* in the reference pattern, `([\w-]+)` must be followed by a brace,
  which is not in the class, so only the maximal `[\w-]` run can match;
* in the definition pattern, `([\w-]+)` is followed by `---`, whose
  characters *are* in the class; the engine takes the maximal run and
  gives characters back one at a time, i.e. it succeeds at the largest
  `k ≥ 1` such that the run minus its first `k` characters, followed by
  the rest, starts with `---` and is eventually followed by
  `---end---` (the lazy body takes everything up to the *first*
  occurrence of `---end---`).
-/

/-- Helper for `matchRef`: after the first capture `t`, the rest of the
string must start with a colon, then a nonempty `[\w-]` run, then the
closing braces. -/
def matchRefTail (t : Str) : Str → Option (Str × Str × Str)
  | ':' :: s3 =>
    if t = [] then none else
    if s3.takeWhile isWordDash = [] then none else
    (stripLit (str "\x7d\x7d") (s3.dropWhile isWordDash)).map
      (fun s5 => (t, s3.takeWhile isWordDash, s5))
  | _ => none

/-- Match `\{\{diagram:([^:]+):([\w-]+)\}\}` anchored at the start of `s`;
returns (type capture, id capture, remainder after the match). -/
def matchRef (s : Str) : Option (Str × Str × Str) :=
  (stripLit (str "\x7b\x7bdiagram:") s).bind
    (fun s1 => matchRefTail (s1.takeWhile (· ≠ ':')) (s1.dropWhile (· ≠ ':')))

/-- One backtracking attempt for the definition pattern's id capture: the
id is the first `k` characters of the `[\w-]` run; the rest must start
with `---` and contain `---end---`, the lazy body being everything up to
its first occurrence.  Returns (id, raw body, remainder). -/
def tryDefK (run after : Str) (k : Nat) : Option (Str × Str × Str) :=
  (stripLit (str "---") (run.drop k ++ after)).bind
    (fun s4 => (splitOnFirst (str "---end---") s4).map
      (fun pr => (run.take k, pr.1, pr.2)))

/-- Backtracking loop over the id capture length, largest first. -/
def kLoopDef (run after : Str) : Nat → Option (Str × Str × Str)
  | 0 => none
  | k+1 =>
    match tryDefK run after (k+1) with
    | some r => some r
    | none => kLoopDef run after k

/-- Helper for `matchDef`: after the first capture `t`, the rest must
start with a colon; the id capture is resolved by backtracking. -/
def matchDefTail (t : Str) : Str → Option (Str × Str × Str × Str)
  | ':' :: s3 =>
    if t = [] then none else
    (kLoopDef (s3.takeWhile isWordDash) (s3.dropWhile isWordDash)
        (s3.takeWhile isWordDash).length).map
      (fun r => (t, r.1, r.2.1, r.2.2))
  | _ => none

/-- Match `---diagram:([^:]+):([\w-]+)---([\s\S]*?)---end---` anchored at
the start of `s`; returns (type, id, raw body, remainder). -/
def matchDef (s : Str) : Option (Str × Str × Str × Str) :=
  (stripLit (str "---diagram:") s).bind
    (fun s1 => matchDefTail (s1.takeWhile (· ≠ ':')) (s1.dropWhile (· ≠ ':')))

/-- Global scan for definition matches (the `exec` loop of the source):
leftmost match, then continue after its end.  Fuelled; each step consumes
at least one character, so `length + 1` fuel always suffices. -/
def defScanAux : Nat → Str → List (Str × Str × Str)
  | 0, _ => []
  | fuel+1, s =>
    match matchDef s with
    | some (t, i, c, rem) => (t, i, c) :: defScanAux fuel rem
    | none =>
      match s with
      | [] => []
      | _ :: rest => defScanAux fuel rest

/-- All definition-block matches of `code`, in order. -/
def defScan (s : Str) : List (Str × Str × Str) := defScanAux (s.length + 1) s

/-- `code.replace(definitionRegex, '')`: drop every match, keep the rest. -/
def stripDefsAux : Nat → Str → Str
  | 0, s => s
  | fuel+1, s =>
    match matchDef s with
    | some (_, _, _, rem) => stripDefsAux fuel rem
    | none =>
      match s with
      | [] => []
      | c :: rest => c :: stripDefsAux fuel rest

/-- Source with all definition blocks removed. -/
def stripDefs (s : Str) : Str := stripDefsAux (s.length + 1) s

/-- Global scan for reference matches, keeping the plain text between
them: returns the list of (text before this match, type, id) plus the
trailing text after the last match. -/
def refScanAux : Nat → Str → List (Str × Str × Str) × Str
  | 0, s => ([], s)
  | fuel+1, s =>
    match matchRef s with
    | some (t, i, rem) =>
      let pr := refScanAux fuel rem
      (([], t, i) :: pr.1, pr.2)
    | none =>
      match s with
      | [] => ([], [])
      | c :: rest =>
        let pr := refScanAux fuel rest
        match pr.1 with
        | [] => ([], c :: pr.2)
        | (pre, t, i) :: ps2 => ((c :: pre, t, i) :: ps2, pr.2)

/-- Reference-site split of a content string. -/
def refScan (s : Str) : List (Str × Str × Str) × Str := refScanAux (s.length + 1) s

/-- The reference matches of `content`, in order, as (type, id) pairs. -/
def findRefs (s : Str) : List (Str × Str) := (refScan s).1.map (fun p => (p.2.1, p.2.2))

/-! ## Insertion-ordered maps (JS `Map`) -/

/-- Lookup (JS `Map.prototype.get`); keys are unique by construction. -/
def mapGet {α : Type} : List (Str × α) → Str → Option α
  | [], _ => none
  | (k2, v) :: rest, k => if k = k2 then some v else mapGet rest k

/-- JS `Map.prototype.set`: overwrite in place, else append (insertion
order preserved). -/
def mapSet {α : Type} : List (Str × α) → Str → α → List (Str × α)
  | [], k, v => [(k, v)]
  | (k2, v2) :: rest, k, v =>
    if k = k2 then (k2, v) :: rest else (k2, v2) :: mapSet rest k v

/-- JS `Map.prototype.has`. -/
def mapHas {α : Type} (m : List (Str × α)) (k : Str) : Bool := (mapGet m k).isSome

/-- Iteration order of keys (insertion order). -/
def mapKeys {α : Type} (m : List (Str × α)) : List Str := m.map (·.1)

/-- JS `Set` add: no-op when already present. -/
def setAdd (s : List Str) (x : Str) : List Str := if s.contains x then s else s ++ [x]

/-- JS `Set` delete. -/
def setDelete (s : List Str) (x : Str) : List Str := s.filter (· ≠ x)

/-- JS `Set` has. -/
def setHas (s : List Str) (x : Str) : Bool := s.contains x

/-! ## Data model of the processor -/

/-- The registry `Map<string, string>` of diagram definitions. -/
abbrev RegistryT := List (Str × Str)

/-- `ErrorType` members used by the processor. -/
inductive ErrType where
  | syntaxError
  | nestedError
deriving DecidableEq

/-- `DiagramError`. -/
structure DiagramError where
  type : ErrType
  message : Str
deriving DecidableEq

/-- A thrown JS value: either an `Error` instance (only its message
matters to the catch) or a `DiagramError` object literal (recognised by
the catch via its `type`/`message` fields). -/
inductive JsThrown where
  | jsError (message : Str)
  | jsDiagramError (e : DiagramError)
deriving DecidableEq

/-- `DiagramDependency`. -/
structure DepNode where
  id : Str
  dependencies : List Str
  dependents : List Str
deriving DecidableEq, Inhabited

/-- The dependency graph `Map<string, DiagramDependency>`. -/
abbrev Graph := List (Str × DepNode)

/-- `NestingDepthWarning`. -/
structure NestingWarning where
  diagramId : Str
  currentDepth : Nat
  maxDepth : Nat
  path : List Str
deriving DecidableEq

/-- `ParsedDiagram` (recursive through its `nestedDiagrams` map). -/
inductive ParsedDiagram where
  | mk (type : Str) (content : Str) (nestedDiagrams : List (Str × ParsedDiagram))
       (parentReferences : List Str)

/-- Diagram type of a parsed diagram. -/
def ParsedDiagram.dtype : ParsedDiagram → Str
  | .mk t _ _ _ => t

/-- Content of a parsed diagram. -/
def ParsedDiagram.content : ParsedDiagram → Str
  | .mk _ c _ _ => c

/-- Nested-diagram map of a parsed diagram. -/
def ParsedDiagram.nestedDiagrams : ParsedDiagram → List (Str × ParsedDiagram)
  | .mk _ _ n _ => n

/-- `ParseResult`. -/
structure ParseResult where
  success : Bool
  parsedDiagram : Option ParsedDiagram
  error : Option DiagramError
  dependencies : List DepNode
  warnings : List NestingWarning
  topologicalOrder : List Str

/-- `TopologicalSortResult`. -/
structure TopologicalSortResult where
  success : Bool
  sortedOrder : List Str
  error : Option DiagramError
deriving DecidableEq

/-- Mutable instance state of `NestedDiagramProcessor`. -/
structure ProcState where
  diagramRegistry : RegistryT
  dependencyGraph : Graph
  nestingWarnings : List NestingWarning

/-- A freshly constructed processor. -/
def emptyState : ProcState := ⟨[], [], []⟩

/-- `MAX_NESTING_DEPTH`. -/
def MAX_NESTING_DEPTH : Nat := 10

/-- `WARNING_NESTING_DEPTH`. -/
def WARNING_NESTING_DEPTH : Nat := 7

/-! ## The processor's functions -/

/-- `isValidDiagramType`. -/
def isValidDiagramType (t : Str) : Bool :=
  [str "flowchart", str "sequence", str "gantt", str "class", str "state",
   str "pie", str "git", str "er", str "journey"].contains (lowerStr t)

/-- `detectDiagramType`. -/
def detectDiagramType (content : Str) : Option Str :=
  let t := lowerStr (jsTrim content)
  if startsWithStr (str "flowchart") t ∨ startsWithStr (str "graph") t then some (str "flowchart")
  else if startsWithStr (str "sequencediagram") t then some (str "sequence")
  else if startsWithStr (str "gantt") t then some (str "gantt")
  else if startsWithStr (str "classdiagram") t then some (str "class")
  else if startsWithStr (str "statediagram") t then some (str "state")
  else if startsWithStr (str "pie") t then some (str "pie")
  else if startsWithStr (str "gitgraph") t then some (str "git")
  else if startsWithStr (str "erdiagram") t then some (str "er")
  else if startsWithStr (str "journey") t then some (str "journey")
  else none

/-- The loop body of `extractDiagramDefinitions`: register a
definition-block match when its type is valid, its id nonempty, and its
trimmed content nonempty. -/
def extractDefStep (reg : RegistryT) (d : Str × Str × Str) : RegistryT :=
  if isValidDiagramType d.1 ∧ d.2.1 ≠ [] ∧ jsTrim d.2.2 ≠ [] then
    mapSet reg d.2.1 (jsTrim d.2.2)
  else reg

/-- `extractDiagramDefinitions`: clears the registry and registers every
definition-block match whose type is valid and whose trimmed content is
nonempty. -/
def extractDiagramDefinitions (code : Str) : RegistryT :=
  (defScan code).foldl extractDefStep []

/-- `extractMainDiagramContent`. -/
def extractMainDiagramContent (code : Str) : Str := jsTrim (stripDefs code)

/-- `cycle.join(' -> ')`. -/
def joinArrow (l : List Str) : Str := List.intercalate (str " -> ") l

/-- Reassemble content with every reference match replaced by the quoted
id (the `content.replace(nestedSyntaxRegex, ...)` call returning
`"${id}"`). -/
def joinPieces : List (Str × Str × Str) → Str → Str
  | [], tl => tl
  | (pre, _, i) :: ps, tl => pre ++ ('"' :: (i ++ ['"'])) ++ joinPieces ps tl

/-- `processNestedReferences`.  The fuel argument stands for the call
stack: the source recursion increments `depth` at every nested call and
aborts once `depth` exceeds the hard cap, so from the root call
(`depth = 0`, fuel 12) the fuel branch is unreachable.  Returns the
rewritten content and the populated nested-diagram map, or the thrown
value; the accumulated warnings (instance state) are returned in both
cases. -/
def processNestedReferences (reg : RegistryT) :
    Nat → Str → List Str → Nat → List NestingWarning →
    Except JsThrown (Str × List (Str × ParsedDiagram)) × List NestingWarning
  | 0, _, _, _, ws => (Except.error (JsThrown.jsError (str "out of fuel")), ws)
  | fuel+1, content, parentReferences, depth, ws0 =>
    if MAX_NESTING_DEPTH < depth then
      (Except.error (JsThrown.jsError (str "Maximum nesting depth (10) exceeded")), ws0)
    else
      let ws1 := if WARNING_NESTING_DEPTH ≤ depth ∧ parentReferences ≠ [] then
          ws0 ++ [{ diagramId := parentReferences.getLast?.getD [],
                    currentDepth := depth, maxDepth := MAX_NESTING_DEPTH,
                    path := parentReferences }]
        else ws0
      let pieces := refScan content
      let refs := pieces.1.map (fun p => (p.2.1, p.2.2))
      let loop := refs.foldl (fun acc r =>
        match acc with
        | (Except.error e, ws) => (Except.error e, ws)
        | (Except.ok nested, ws) =>
          if ¬ isValidDiagramType r.1 then
            (Except.error (JsThrown.jsError (str "Invalid diagram type: " ++ r.1)), ws)
          else
            match mapGet reg r.2 with
            | none =>
              (Except.error (JsThrown.jsError (str "Referenced diagram not found: " ++ r.2)), ws)
            | some diagramCode =>
              if jsIncludes parentReferences r.2 then
                (Except.error (JsThrown.jsDiagramError
                  { type := ErrType.nestedError,
                    message := str "Circular reference detected: "
                      ++ joinArrow (parentReferences ++ [r.2]) }), ws)
              else
                let nestedParentRefs := parentReferences ++ [r.2]
                match processNestedReferences reg fuel diagramCode nestedParentRefs (depth+1) ws with
                | (Except.error e, ws2) => (Except.error e, ws2)
                | (Except.ok pr, ws2) =>
                  (Except.ok (mapSet nested r.2
                    (ParsedDiagram.mk r.1 pr.1 pr.2 nestedParentRefs)), ws2))
        (Except.ok [], ws1)
      match loop with
      | (Except.error e, ws) => (Except.error e, ws)
      | (Except.ok nested, ws) =>
        let replaced := joinPieces pieces.1 pieces.2
        let clicks := refs.map (fun r =>
          str "    click " ++ r.2 ++ str " \"" ++ r.2 ++ str "\"")
        let finalContent :=
          if clicks ≠ [] then replaced ++ str "\n" ++ List.intercalate (str "\n") clicks
          else replaced
        (Except.ok (finalContent, nested), ws)

/-- `extractDependencies`: referenced ids of a definition body, deduplicated. -/
def extractDependencies (code : Str) : List Str :=
  (findRefs code).foldl (fun deps r =>
    if jsIncludes deps r.2 then deps else deps ++ [r.2]) []

/-- The inner loop body of `buildDependencyGraph`: record `a` as a
dependent of `depId` (when `depId` has a node and `a` is not recorded yet). -/
def pushDependent (a : Str) (g2 : Graph) (depId : Str) : Graph :=
  match mapGet g2 depId with
  | none => g2
  | some depNode =>
    if jsIncludes depNode.dependents a then g2
    else mapSet g2 depId { depNode with dependents := depNode.dependents ++ [a] }

/-- The outer loop body of `buildDependencyGraph`: set the dependency
list of the entry's node and push the reverse edges. -/
def addEntryEdges (g : Graph) (e : Str × Str) : Graph :=
  match mapGet g e.1 with
  | none => g
  | some node =>
    (extractDependencies e.2).foldl (pushDependent e.1)
      (mapSet g e.1 { node with dependencies := extractDependencies e.2 })

/-- `buildDependencyGraph`: one node per registered id, then dependency
and (deduplicated) dependent edges. -/
def buildDependencyGraph (reg : RegistryT) : Graph :=
  reg.foldl addEntryEdges
    (reg.foldl (fun g e =>
      mapSet g e.1 { id := e.1, dependencies := [], dependents := [] }) [])

/-- `dfsCircularCheck`: DFS with a recursion stack; returns the cycle (if
any) and the updated `visited`/`recursionStack` sets.  The path argument
is copied at each recursive call, as in the source. -/
def dfsCircularCheck (g : Graph) :
    Nat → Str → List Str → List Str → List Str →
    Option (List Str) × List Str × List Str
  | 0, _, visited, stack, _ => (none, visited, stack)
  | fuel+1, nodeId, visited, stack, path =>
    let visited1 := setAdd visited nodeId
    let stack1 := setAdd stack nodeId
    let path1 := path ++ [nodeId]
    let deps := match mapGet g nodeId with
                | none => []
                | some n => n.dependencies
    let loop := deps.foldl (fun acc depId =>
      match acc with
      | (some cyc, v, s) => (some cyc, v, s)
      | (none, v, s) =>
        if ¬ setHas v depId then
          dfsCircularCheck g fuel depId v s path1
        else if setHas s depId then
          (some ((path1.drop (jsIndexOf path1 depId)) ++ [depId]), v, s)
        else (none, v, s)) (none, visited1, stack1)
    match loop with
    | (some cyc, v, s) => (some cyc, v, s)
    | (none, v, s) => (none, v, setDelete s nodeId)

/-- Fuel bound used for the graph traversals: one unit per node plus one
per dependency edge suffices for the recursion depth. -/
def topoFuel (g : Graph) : Nat :=
  g.length + g.foldl (fun n e => n + e.2.dependencies.length) 0 + 1

/-- `detectCircularReferences`: whole-graph DFS from every unvisited node. -/
def detectCircularReferences (g : Graph) : Option (List Str) :=
  ((mapKeys g).foldl (fun acc id =>
    match acc with
    | (some cyc, v, s) => (some cyc, v, s)
    | (none, v, s) =>
      if ¬ setHas v id then dfsCircularCheck g (topoFuel g) id v s []
      else (none, v, s)) (none, [], [])).1

/-- State of the topological-sort traversal. -/
structure TopoState where
  visited : List Str
  tempMark : List Str
  sortedOrder : List Str
deriving DecidableEq

/-- The dependency list of a node's graph entry (empty when absent). -/
def nodeDeps (g : Graph) (nodeId : Str) : List Str :=
  match mapGet g nodeId with
  | none => []
  | some n => n.dependencies

/-- The inner `visit` closure of `getTopologicalOrder` (white/gray/black
marking, postorder append).  `none` is fuel exhaustion, which is shown
unreachable for the fuel chosen by `getTopologicalOrder`. -/
def topoVisit (g : Graph) : Nat → Str → TopoState → Option (Bool × TopoState)
  | 0, _, _ => none
  | fuel+1, nodeId, st =>
    if setHas st.tempMark nodeId then some (false, st)
    else if setHas st.visited nodeId then some (true, st)
    else
      let st1 : TopoState := { st with tempMark := setAdd st.tempMark nodeId }
      let deps := nodeDeps g nodeId
      let loop := deps.foldl (fun acc depId =>
        match acc with
        | none => none
        | some (false, s) => some (false, s)
        | some (true, s) => topoVisit g fuel depId s) (some (true, st1))
      match loop with
      | none => none
      | some (false, s) => some (false, s)
      | some (true, s) =>
        some (true, { visited := setAdd s.visited nodeId,
                      tempMark := setDelete s.tempMark nodeId,
                      sortedOrder := s.sortedOrder ++ [nodeId] })

/-- The loop body of `getTopologicalOrder` over the registered ids. -/
def toStep (g : Graph) (acc : Option (Bool × TopoState)) (nodeId : Str) :
    Option (Bool × TopoState) :=
  match acc with
  | none => none
  | some (false, s) => some (false, s)
  | some (true, s) =>
    if ¬ setHas s.visited nodeId then topoVisit g (topoFuel g) nodeId s
    else some (true, s)

/-- `getTopologicalOrder`. -/
def getTopologicalOrder (g : Graph) : TopologicalSortResult :=
  let loop := (mapKeys g).foldl (toStep g) (some (true, ⟨[], [], []⟩))
  match loop with
  | none => { success := true, sortedOrder := [], error := none }
  | some (false, _) =>
    { success := false, sortedOrder := [],
      error := some { type := ErrType.nestedError,
                      message := str "Circular dependency detected during topological sort" } }
  | some (true, s) => { success := true, sortedOrder := s.sortedOrder, error := none }

/-- The loop body of `hasDependency` (explicit-stack DFS; JS `pop` takes
from the end of the array). -/
def hasDependencyAux (g : Graph) (b : Str) : Nat → List Str → List Str → Bool
  | 0, _, _ => false
  | fuel+1, visited, stack =>
    match stack.getLast? with
    | none => false
    | some current =>
      let stack2 := stack.dropLast
      if setHas visited current then hasDependencyAux g b fuel visited stack2
      else
        let visited2 := setAdd visited current
        if current = b then true
        else
          let pushed := match mapGet g current with
                        | none => stack2
                        | some n => stack2 ++ n.dependencies
          hasDependencyAux g b fuel visited2 pushed

/-- `hasDependency`: does diagram `a` depend (directly or transitively)
on diagram `b`? -/
def hasDependency (g : Graph) (a b : Str) : Bool :=
  hasDependencyAux g b (2 * topoFuel g + g.length + 2) [] [a]

/-- `hasContentChanged`: re-extract the definitions of `code` (the same
regex loop and validity filter as `extractDiagramDefinitions`, inlined in
the source) and compare against the stored registry. -/
def hasContentChanged (reg : RegistryT) (code : Str) : Bool :=
  let current : RegistryT := extractDiagramDefinitions code
  if current.any (fun e => ¬ (mapGet reg e.1 = some e.2)) then true
  else if reg.any (fun e => ¬ mapHas current e.1) then true
  else false

/-- `parseNestedSyntax`: the orchestrating resolution pass, returning the
`ParseResult` together with the updated instance state. -/
def parseNestedSyntax (st : ProcState) (code : Str) : ParseResult × ProcState :=
  let reg := extractDiagramDefinitions code
  let mainDiagramContent := extractMainDiagramContent code
  match detectDiagramType mainDiagramContent with
  | none =>
    ({ success := false, parsedDiagram := none,
       error := some { type := ErrType.syntaxError,
                       message := str "Unable to detect diagram type from content" },
       dependencies := [], warnings := [], topologicalOrder := [] },
     { st with diagramRegistry := reg, nestingWarnings := [] })
  | some diagramType =>
    match processNestedReferences reg 12 mainDiagramContent [] 0 [] with
    | (Except.error (JsThrown.jsDiagramError e), ws) =>
      ({ success := false, parsedDiagram := none, error := some e,
         dependencies := st.dependencyGraph.map (·.2), warnings := ws,
         topologicalOrder := [] },
       { st with diagramRegistry := reg, nestingWarnings := ws })
    | (Except.error (JsThrown.jsError msg), ws) =>
      ({ success := false, parsedDiagram := none,
         error := some { type := ErrType.syntaxError, message := msg },
         dependencies := [], warnings := ws, topologicalOrder := [] },
       { st with diagramRegistry := reg, nestingWarnings := ws })
    | (Except.ok pr, ws) =>
      let g := buildDependencyGraph reg
      match detectCircularReferences g with
      | some cyc =>
        ({ success := false, parsedDiagram := none,
           error := some { type := ErrType.nestedError,
                           message := str "Circular reference detected: " ++ joinArrow cyc },
           dependencies := g.map (·.2), warnings := ws, topologicalOrder := [] },
         { diagramRegistry := reg, dependencyGraph := g, nestingWarnings := ws })
      | none =>
        let parsed := ParsedDiagram.mk diagramType pr.1 pr.2 []
        let topo := getTopologicalOrder g
        ({ success := true, parsedDiagram := some parsed, error := none,
           dependencies := g.map (·.2), warnings := ws,
           topologicalOrder := if topo.success then topo.sortedOrder else [] },
         { diagramRegistry := reg, dependencyGraph := g, nestingWarnings := ws })

/-! ## Support: identifiers and sources used in the claims -/

/-- Well-formed diagram ids, as used throughout the claims: nonempty and
made of lower-case letters or digits (a subset of the `[\w-]` id class
that cannot collide with any delimiter character). -/
def IsIdChar (c : Char) : Prop :=
  ('a' ≤ c ∧ c ≤ 'z') ∨ ('0' ≤ c ∧ c ≤ '9')

/-- A well-formed id string. -/
def GoodId (x : Str) : Prop := x ≠ [] ∧ ∀ c ∈ x, IsIdChar c

/-! ## Lemmas about `stripLit` -/

theorem stripLit_self_append (p s : Str) : stripLit p (p ++ s) = some s := by
  induction p with
  | nil => rfl
  | cons c cs ih => simp [stripLit, ih]

theorem stripLit_some_eq {p s r : Str} (h : stripLit p s = some r) : s = p ++ r := by
  induction p generalizing s with
  | nil =>
    simp only [stripLit, Option.some_inj] at h
    simpa using h
  | cons c cs ih =>
    cases s with
    | nil => simp [stripLit] at h
    | cons d ds =>
      by_cases hd : d = c
      · subst hd
        simp [stripLit] at h
        simpa using ih h
      · simp [stripLit, hd] at h

theorem stripLit_length {p s r : Str} (h : stripLit p s = some r) :
    s.length = p.length + r.length := by
  have := stripLit_some_eq h
  subst this
  simp [List.length_append]

theorem stripLit_head_ne {c hp : Char} {ps s : Str} (h : c ≠ hp) :
    stripLit (hp :: ps) (c :: s) = none := by
  simp [stripLit, h]

/-- A decidable witness that literal matching fails inside the concrete
part of a string: some aligned pair of characters differs. -/
def litClash (pat s : Str) : Bool :=
  (List.zip pat s).any (fun pr => pr.1 ≠ pr.2)

theorem stripLit_none_of_clash {pat s : Str} (h : litClash pat s = true) (tail : Str) :
    stripLit pat (s ++ tail) = none := by
  induction pat generalizing s with
  | nil => simp [litClash] at h
  | cons p ps ih =>
    cases s with
    | nil => simp [litClash] at h
    | cons c cs =>
      by_cases hc : c = p
      · subst hc
        have h2 : litClash ps cs = true := by simpa [litClash] using h
        simp [stripLit, ih h2]
      · simp [stripLit, hc]

/-- Every nonempty suffix of `s` clashes with `pat`: no occurrence of
`pat` can start inside `s`, whatever follows it. -/
def allSuffixClash (pat s : Str) : Bool :=
  (List.range s.length).all (fun i => litClash pat (s.drop i))

/-! ## `NoOccP`: no match of a literal pattern starts inside a segment -/

/-- `NoOccP pat seg tail`: matching `pat` fails at every position inside
`seg` of the string `seg ++ tail`. -/
def NoOccP (pat : Str) : Str → Str → Prop
  | [], _ => True
  | c :: rest, tail => stripLit pat (c :: (rest ++ tail)) = none ∧ NoOccP pat rest tail

theorem NoOccP_nil (pat tail : Str) : NoOccP pat [] tail := trivial

theorem NoOccP_append {pat A B tail : Str}
    (hA : NoOccP pat A (B ++ tail)) (hB : NoOccP pat B tail) :
    NoOccP pat (A ++ B) tail := by
  induction A with
  | nil => simpa using hB
  | cons c cs ih =>
    obtain ⟨h1, h2⟩ := hA
    exact ⟨by simpa [List.append_assoc] using h1, ih h2⟩

theorem NoOccP_of_allSuffixClash {pat seg : Str} (h : allSuffixClash pat seg = true)
    (tail : Str) : NoOccP pat seg tail := by
  induction seg with
  | nil => trivial
  | cons c cs ih =>
    simp only [allSuffixClash, List.all_eq_true, List.mem_range] at h
    refine ⟨?_, ih ?_⟩
    · have h0 := h 0 (by simp)
      simpa using stripLit_none_of_clash (s := c :: cs) (by simpa using h0) tail
    · simp only [allSuffixClash, List.all_eq_true, List.mem_range]
      intro i hi
      have := h (i + 1) (by simpa using Nat.succ_lt_succ hi)
      simpa using this

/-- Patterns starting with a delimiter character never match at an
id character. -/
theorem NoOccP_of_run {pat : Str} {hp : Char} {x : Str}
    (hpat : ∃ ps, pat = hp :: ps) (hx : ∀ c ∈ x, c ≠ hp) (tail : Str) :
    NoOccP pat x tail := by
  induction x with
  | nil => trivial
  | cons c cs ih =>
    obtain ⟨ps, rfl⟩ := hpat
    refine ⟨stripLit_head_ne (hx c (by simp)), ih ?_⟩
    intro d hd
    exact hx d (by simp [hd])

/-! ## Lemmas about `splitOnFirst` -/

theorem splitOnFirst_recover {pat s pre rem : Str}
    (h : splitOnFirst pat s = some (pre, rem)) : s = pre ++ pat ++ rem := by
  induction s generalizing pre with
  | nil =>
    simp only [splitOnFirst] at h
    cases hp : stripLit pat [] with
    | none => simp [hp] at h
    | some r =>
      rw [hp] at h
      have := stripLit_some_eq hp
      cases h
      simp_all
  | cons c cs ih =>
    simp only [splitOnFirst] at h
    cases hp : stripLit pat (c :: cs) with
    | some r =>
      rw [hp] at h
      cases h
      simpa using stripLit_some_eq hp
    | none =>
      rw [hp] at h
      cases hrec : splitOnFirst pat cs with
      | none => rw [hrec] at h; cases h
      | some pr =>
        rw [hrec] at h
        cases pr with
        | mk p r =>
          cases h
          have := ih hrec
          simp [this]

theorem splitOnFirst_at_start (pat rest : Str) (hpat : pat ≠ []) :
    splitOnFirst pat (pat ++ rest) = some ([], rest) := by
  cases pat with
  | nil => exact absurd rfl hpat
  | cons p ps =>
    have hs : stripLit (p :: ps) ((p :: ps) ++ rest) = some rest :=
      stripLit_self_append (p :: ps) rest
    simp only [List.cons_append] at hs ⊢
    simp [splitOnFirst, hs]

theorem splitOnFirst_skip {pat body tail : Str} (hno : NoOccP pat body tail) :
    splitOnFirst pat (body ++ tail) =
      (splitOnFirst pat tail).map (fun pr => (body ++ pr.1, pr.2)) := by
  induction body with
  | nil =>
    simp only [List.nil_append]
    cases splitOnFirst pat tail with
    | none => simp
    | some pr => cases pr; simp
  | cons c cs ih =>
    obtain ⟨h1, h2⟩ := hno
    have step : splitOnFirst pat (c :: (cs ++ tail)) =
        (splitOnFirst pat (cs ++ tail)).map (fun pr => (c :: pr.1, pr.2)) := by
      simp only [splitOnFirst, h1]
      cases splitOnFirst pat (cs ++ tail) with
      | none => simp
      | some pr => cases pr; simp
    rw [show (c :: cs) ++ tail = c :: (cs ++ tail) from rfl, step, ih h2]
    cases splitOnFirst pat tail <;> simp

theorem splitOnFirst_found {pat body rest : Str} (hpat : pat ≠ [])
    (hno : NoOccP pat body (pat ++ rest)) :
    splitOnFirst pat (body ++ (pat ++ rest)) = some (body, rest) := by
  rw [splitOnFirst_skip hno, splitOnFirst_at_start pat rest hpat]
  simp

/-! ## Match-consumption bounds and fuel irrelevance for the scanners -/

theorem dropWhile_length_le (p : Char → Bool) (s : Str) :
    (s.dropWhile p).length ≤ s.length := by
  induction s with
  | nil => simp
  | cons c cs ih =>
    by_cases h : p c
    · simp only [List.dropWhile_cons, h, if_true]
      exact Nat.le_succ_of_le ih
    · simp [List.dropWhile_cons, h]

theorem splitOnFirst_length {pat s pre rem : Str}
    (h : splitOnFirst pat s = some (pre, rem)) :
    pre.length + pat.length + rem.length = s.length := by
  have := splitOnFirst_recover h
  subst this
  simp [List.length_append]
  omega

theorem matchRefTail_length {t s2 t2 i rem : Str}
    (h : matchRefTail t s2 = some (t2, i, rem)) : rem.length + 4 ≤ s2.length := by
  unfold matchRefTail at h
  split at h
  · rename_i s3
    split at h
    · cases h
    · rename_i ht
      split at h
      · cases h
      · rename_i hrun
        rw [Option.map_eq_some'] at h
        obtain ⟨s5, h3, hval⟩ := h
        cases hval
        have hd2 := stripLit_length h3
        have hl2 : (str "\x7d\x7d").length = 2 := by decide
        have hrun1 : 1 ≤ (s3.takeWhile isWordDash).length := by
          cases hr : s3.takeWhile isWordDash with
          | nil => exact absurd hr hrun
          | cons a b => simp
        have hsplit : (s3.takeWhile isWordDash).length
            + (s3.dropWhile isWordDash).length = s3.length := by
          rw [← List.length_append, List.takeWhile_append_dropWhile]
        simp only [List.length_cons]
        omega
  · cases h

theorem matchRef_length {s t i rem : Str} (h : matchRef s = some (t, i, rem)) :
    rem.length < s.length := by
  unfold matchRef at h
  rw [Option.bind_eq_some] at h
  obtain ⟨s1, h1, h⟩ := h
  have hs1 : s.length = 10 + s1.length := by
    have := stripLit_length h1
    have hl : (str "\x7b\x7bdiagram:").length = 10 := by decide
    omega
  have htail := matchRefTail_length h
  have hd : (s1.dropWhile (· ≠ ':')).length ≤ s1.length :=
    dropWhile_length_le _ _
  omega

theorem kLoopDef_exists {run after : Str} {K : Nat} {r : Str × Str × Str}
    (h : kLoopDef run after K = some r) : ∃ k, tryDefK run after k = some r := by
  induction K with
  | zero => simp [kLoopDef] at h
  | succ k ih =>
    simp only [kLoopDef] at h
    cases htry : tryDefK run after (k+1) with
    | some r2 => rw [htry] at h; cases h; exact ⟨k+1, htry⟩
    | none => rw [htry] at h; exact ih h

theorem tryDefK_length {run after : Str} {k : Nat} {i body rem : Str}
    (h : tryDefK run after k = some (i, body, rem)) :
    rem.length + 12 ≤ run.length + after.length := by
  unfold tryDefK at h
  rw [Option.bind_eq_some] at h
  obtain ⟨s4, h1, h⟩ := h
  rw [Option.map_eq_some'] at h
  obtain ⟨pr, h2, hval⟩ := h
  obtain ⟨b, r⟩ := pr
  cases hval
  show r.length + 12 ≤ run.length + after.length
  have hl1 : (run.drop k ++ after).length = 3 + s4.length := by
    have := stripLit_length h1
    have hl : (str "---").length = 3 := by decide
    omega
  have hl2 := splitOnFirst_length h2
  have hl3 : (run.drop k).length ≤ run.length := by
    simp [List.length_drop]
  have hl4 : (str "---end---").length = 9 := by decide
  simp only [List.length_append] at hl1
  omega

theorem matchDefTail_length {t s2 t2 i c rem : Str}
    (h : matchDefTail t s2 = some (t2, i, c, rem)) : rem.length + 13 ≤ s2.length := by
  unfold matchDefTail at h
  split at h
  · rename_i s3
    split at h
    · cases h
    · rename_i ht
      rw [Option.map_eq_some'] at h
      obtain ⟨r, h3, hval⟩ := h
      obtain ⟨i2, b, r2⟩ := r
      cases hval
      obtain ⟨k, hk⟩ := kLoopDef_exists h3
      have := tryDefK_length hk
      have hsplit : (s3.takeWhile isWordDash).length
          + (s3.dropWhile isWordDash).length = s3.length := by
        rw [← List.length_append, List.takeWhile_append_dropWhile]
      simp only [List.length_cons]
      omega
  · cases h

theorem matchDef_length {s t i c rem : Str} (h : matchDef s = some (t, i, c, rem)) :
    rem.length < s.length := by
  unfold matchDef at h
  rw [Option.bind_eq_some] at h
  obtain ⟨s1, h1, h⟩ := h
  have hs1 : s.length = 11 + s1.length := by
    have := stripLit_length h1
    have hl : (str "---diagram:").length = 11 := by decide
    omega
  have htail := matchDefTail_length h
  have hd : (s1.dropWhile (· ≠ ':')).length ≤ s1.length :=
    dropWhile_length_le _ _
  omega

theorem matchRef_nil : matchRef [] = none := by decide

theorem matchDef_nil : matchDef [] = none := by decide

theorem refScanAux_nil (f : Nat) : refScanAux f [] = ([], []) := by
  cases f with
  | zero => rfl
  | succ g => simp [refScanAux, matchRef_nil]

theorem defScanAux_nil (f : Nat) : defScanAux f [] = [] := by
  cases f with
  | zero => rfl
  | succ g => simp [defScanAux, matchDef_nil]

theorem stripDefsAux_nil (f : Nat) : stripDefsAux f [] = [] := by
  cases f with
  | zero => rfl
  | succ g => simp [stripDefsAux, matchDef_nil]

theorem refScanAux_irrel :
    ∀ f₁ f₂ s, s.length ≤ f₁ → s.length ≤ f₂ → refScanAux f₁ s = refScanAux f₂ s := by
  intro f₁
  induction f₁ with
  | zero =>
    intro f₂ s h1 _
    have : s = [] := List.length_eq_zero.mp (Nat.le_zero.mp h1)
    subst this
    rw [refScanAux_nil, refScanAux_nil]
  | succ g ih =>
    intro f₂ s h1 h2
    cases s with
    | nil => rw [refScanAux_nil, refScanAux_nil]
    | cons c rest =>
      cases f₂ with
      | zero => simp at h2
      | succ h =>
        cases hm : matchRef (c :: rest) with
        | some r =>
          obtain ⟨t, i, rem⟩ := r
          have hlen := matchRef_length hm
          simp only [List.length_cons] at h1 h2 hlen
          simp only [refScanAux, hm]
          rw [ih h rem (by omega) (by omega)]
        | none =>
          simp only [List.length_cons] at h1 h2
          simp only [refScanAux, hm]
          rw [ih h rest (by omega) (by omega)]

theorem defScanAux_irrel :
    ∀ f₁ f₂ s, s.length ≤ f₁ → s.length ≤ f₂ → defScanAux f₁ s = defScanAux f₂ s := by
  intro f₁
  induction f₁ with
  | zero =>
    intro f₂ s h1 _
    have : s = [] := List.length_eq_zero.mp (Nat.le_zero.mp h1)
    subst this
    rw [defScanAux_nil, defScanAux_nil]
  | succ g ih =>
    intro f₂ s h1 h2
    cases s with
    | nil => rw [defScanAux_nil, defScanAux_nil]
    | cons c rest =>
      cases f₂ with
      | zero => simp at h2
      | succ h =>
        cases hm : matchDef (c :: rest) with
        | some r =>
          obtain ⟨t, i, bd, rem⟩ := r
          have hlen := matchDef_length hm
          simp only [List.length_cons] at h1 h2 hlen
          simp only [defScanAux, hm]
          rw [ih h rem (by omega) (by omega)]
        | none =>
          simp only [List.length_cons] at h1 h2
          simp only [defScanAux, hm]
          rw [ih h rest (by omega) (by omega)]

theorem takeWhile_append_all {p : Char → Bool} {xs ys : Str}
    (h : ∀ c ∈ xs, p c = true) :
    (xs ++ ys).takeWhile p = xs ++ ys.takeWhile p := by
  induction xs with
  | nil => simp
  | cons c cs ih =>
    have hc : p c = true := h c (by simp)
    simp only [List.cons_append, List.takeWhile_cons, hc, if_true]
    rw [ih (fun d hd => h d (by simp [hd]))]

theorem dropWhile_append_all {p : Char → Bool} {xs ys : Str}
    (h : ∀ c ∈ xs, p c = true) :
    (xs ++ ys).dropWhile p = ys.dropWhile p := by
  induction xs with
  | nil => simp
  | cons c cs ih =>
    have hc : p c = true := h c (by simp)
    simp only [List.cons_append, List.dropWhile_cons, hc, if_true]
    exact ih (fun d hd => h d (by simp [hd]))

theorem stripDefsAux_irrel :
    ∀ f₁ f₂ s, s.length ≤ f₁ → s.length ≤ f₂ → stripDefsAux f₁ s = stripDefsAux f₂ s := by
  intro f₁
  induction f₁ with
  | zero =>
    intro f₂ s h1 _
    have : s = [] := List.length_eq_zero.mp (Nat.le_zero.mp h1)
    subst this
    rw [stripDefsAux_nil, stripDefsAux_nil]
  | succ g ih =>
    intro f₂ s h1 h2
    cases s with
    | nil => rw [stripDefsAux_nil, stripDefsAux_nil]
    | cons c rest =>
      cases f₂ with
      | zero => simp at h2
      | succ h =>
        cases hm : matchDef (c :: rest) with
        | some r =>
          obtain ⟨t, i, bd, rem⟩ := r
          have hlen := matchDef_length hm
          simp only [List.length_cons] at h1 h2 hlen
          simp only [stripDefsAux, hm]
          rw [ih h rem (by omega) (by omega)]
        | none =>
          simp only [List.length_cons] at h1 h2
          simp only [stripDefsAux, hm]
          rw [ih h rest (by omega) (by omega)]

/-! ## Facts about well-formed ids -/

instance (c : Char) : Decidable (IsIdChar c) := by
  unfold IsIdChar
  exact inferInstance

instance (x : Str) : Decidable (GoodId x) := by
  unfold GoodId
  exact inferInstance

theorem IsIdChar_ne {c d : Char} (h : IsIdChar c) (hd : ¬ IsIdChar d) : c ≠ d :=
  fun e => hd (e ▸ h)

theorem isWordDash_of_idchar {c : Char} (h : IsIdChar c) : isWordDash c = true := by
  rcases h with ⟨h1, h2⟩ | ⟨h1, h2⟩ <;>
    simp [isWordDash, isWordChar] <;> tauto

theorem isWs_of_idchar {c : Char} (h : IsIdChar c) : isWs c = false := by
  have e1 : c ≠ ' ' := IsIdChar_ne h (by decide)
  have e2 : c ≠ '\n' := IsIdChar_ne h (by decide)
  have e3 : c ≠ '\t' := IsIdChar_ne h (by decide)
  have e4 : c ≠ '\r' := IsIdChar_ne h (by decide)
  have e5 : c ≠ '\x0b' := IsIdChar_ne h (by decide)
  have e6 : c ≠ '\x0c' := IsIdChar_ne h (by decide)
  simp [isWs, e1, e2, e3, e4, e5, e6]

/-! ## Hit lemmas: the matchers on a well-formed reference / definition -/

theorem matchRefTail_hit {t x rest : Str} (ht : t ≠ []) (hx : GoodId x) :
    matchRefTail t (':' :: (x ++ ('\x7d' :: '\x7d' :: rest))) = some (t, x, rest) := by
  obtain ⟨hxne, hxc⟩ := hx
  have hall : ∀ c ∈ x, isWordDash c = true := fun c hc => isWordDash_of_idchar (hxc c hc)
  have htake : (x ++ ('\x7d' :: '\x7d' :: rest)).takeWhile isWordDash = x := by
    rw [takeWhile_append_all hall]
    simp [List.takeWhile_cons, isWordDash, isWordChar]
  have hdrop : (x ++ ('\x7d' :: '\x7d' :: rest)).dropWhile isWordDash
      = '\x7d' :: '\x7d' :: rest := by
    rw [dropWhile_append_all hall]
    simp [List.dropWhile_cons, isWordDash, isWordChar]
  have hstrip : stripLit (str "\x7d\x7d") ('\x7d' :: '\x7d' :: rest) = some rest := rfl
  simp only [matchRefTail, htake, hdrop, hstrip, if_neg ht, if_neg hxne,
    Option.map_some']

theorem matchRef_hit {t x rest : Str} (ht : t ≠ []) (htc : ∀ c ∈ t, c ≠ ':')
    (hx : GoodId x) :
    matchRef (str "\x7b\x7bdiagram:" ++ (t ++ ':' :: (x ++ ('\x7d' :: '\x7d' :: rest))))
      = some (t, x, rest) := by
  unfold matchRef
  rw [stripLit_self_append, Option.some_bind]
  have hT : ∀ c ∈ t, (fun c => decide (c ≠ ':')) c = true := by
    intro c hc
    simpa using htc c hc
  rw [takeWhile_append_all hT, dropWhile_append_all hT]
  have e1 : List.takeWhile (fun c => decide (c ≠ ':'))
      (':' :: (x ++ ('\x7d' :: '\x7d' :: rest))) = [] := by
    simp [List.takeWhile_cons]
  have e2 : List.dropWhile (fun c => decide (c ≠ ':'))
      (':' :: (x ++ ('\x7d' :: '\x7d' :: rest)))
      = ':' :: (x ++ ('\x7d' :: '\x7d' :: rest)) := by
    simp [List.dropWhile_cons]
  rw [e1, e2, List.append_nil]
  exact matchRefTail_hit ht hx

theorem drop_append_len {xs : Str} (n : Nat) (ys : Str) (h : xs.length = n) :
    (xs ++ ys).drop n = ys := by
  subst h
  simp

theorem strDash3 : str "---" = ['-', '-', '-'] := rfl

theorem take_append_len {xs : Str} (n : Nat) (ys : Str) (h : xs.length = n) :
    (xs ++ ys).take n = xs := by
  subst h
  simp

theorem kLoopDef_hit {x body rest : Str} (hx : GoodId x)
    {bc : Char} {btl : Str} (hb : body = bc :: btl) (hbc : isWordDash bc = false)
    (hno : NoOccP (str "---end---") body (str "---end---" ++ rest)) :
    kLoopDef (x ++ str "---") (body ++ (str "---end---" ++ rest)) (x.length + 3)
      = some (x, body, rest) := by
  obtain ⟨hxne, hxc⟩ := hx
  have hbcd : bc ≠ '-' := by
    intro e
    rw [e] at hbc
    simp [isWordDash] at hbc
  set after := body ++ (str "---end---" ++ rest) with hafter
  have hT1 : tryDefK (x ++ str "---") after (x.length + 3) = none := by
    unfold tryDefK
    have hdrop : (x ++ str "---").drop (x.length + 3) = [] := by
      have : (x ++ str "---").length = x.length + 3 := by simp [strDash3]
      rw [← this, List.drop_length]
    rw [hdrop]
    simp only [List.nil_append]
    rw [hafter, hb, strDash3]
    simp only [List.cons_append]
    rw [stripLit_head_ne hbcd]
    rfl
  have hT2 : tryDefK (x ++ str "---") after (x.length + 2) = none := by
    unfold tryDefK
    have hdrop : (x ++ str "---").drop (x.length + 2) = ['-'] := by
      have e : x ++ str "---" = (x ++ ['-', '-']) ++ ['-'] := by simp [strDash3]
      rw [e]
      exact drop_append_len _ _ (by simp)
    rw [hdrop, hafter, hb, strDash3]
    simp [stripLit, hbcd]
  have hT3 : tryDefK (x ++ str "---") after (x.length + 1) = none := by
    unfold tryDefK
    have hdrop : (x ++ str "---").drop (x.length + 1) = ['-', '-'] := by
      have e : x ++ str "---" = (x ++ ['-']) ++ ['-', '-'] := by simp [strDash3]
      rw [e]
      exact drop_append_len _ _ (by simp)
    rw [hdrop, hafter, hb, strDash3]
    simp [stripLit, hbcd]
  have hT4 : tryDefK (x ++ str "---") after x.length = some (x, body, rest) := by
    unfold tryDefK
    have hdrop : (x ++ str "---").drop x.length = str "---" :=
      drop_append_len _ _ rfl
    rw [hdrop, hafter, stripLit_self_append, Option.some_bind,
      splitOnFirst_found (by decide) hno, Option.map_some',
      take_append_len _ _ rfl]
  have hsucc : ∀ k, kLoopDef (x ++ str "---") after (k+1) =
      (match tryDefK (x ++ str "---") after (k+1) with
       | some r => some r
       | none => kLoopDef (x ++ str "---") after k) := fun _ => rfl
  have e1 : kLoopDef (x ++ str "---") after (x.length + 3)
      = kLoopDef (x ++ str "---") after (x.length + 2) := by
    rw [show x.length + 3 = (x.length + 2) + 1 from rfl, hsucc]
    rw [show (x.length + 2) + 1 = x.length + 3 from rfl, hT1]
  have e2 : kLoopDef (x ++ str "---") after (x.length + 2)
      = kLoopDef (x ++ str "---") after (x.length + 1) := by
    rw [show x.length + 2 = (x.length + 1) + 1 from rfl, hsucc]
    rw [show (x.length + 1) + 1 = x.length + 2 from rfl, hT2]
  have e3 : kLoopDef (x ++ str "---") after (x.length + 1)
      = kLoopDef (x ++ str "---") after x.length := by
    rw [hsucc, hT3]
  rw [e1, e2, e3]
  cases x with
  | nil => exact absurd rfl hxne
  | cons xc xtl =>
    rw [show (xc :: xtl).length = xtl.length + 1 from rfl, hsucc]
    rw [show xtl.length + 1 = (xc :: xtl).length from rfl, hT4]

theorem takeWhile_wd_dash (l : Str) :
    List.takeWhile isWordDash ('-' :: l) = '-' :: List.takeWhile isWordDash l := rfl

theorem dropWhile_wd_dash (l : Str) :
    List.dropWhile isWordDash ('-' :: l) = List.dropWhile isWordDash l := rfl

theorem matchDefTail_hit {t x body rest : Str} (ht : t ≠ []) (hx : GoodId x)
    {bc : Char} {btl : Str} (hb : body = bc :: btl) (hbc : isWordDash bc = false)
    (hno : NoOccP (str "---end---") body (str "---end---" ++ rest)) :
    matchDefTail t (':' :: (x ++ (str "---" ++ (body ++ (str "---end---" ++ rest)))))
      = some (t, x, body, rest) := by
  have hall : ∀ c ∈ x, isWordDash c = true :=
    fun c hc => isWordDash_of_idchar (hx.2 c hc)
  have htail : List.takeWhile isWordDash (str "---" ++ (body ++ (str "---end---" ++ rest)))
      = str "---" := by
    rw [strDash3, hb]
    simp only [List.cons_append, takeWhile_wd_dash]
    simp [List.takeWhile_cons, hbc]
  have hdtail : List.dropWhile isWordDash (str "---" ++ (body ++ (str "---end---" ++ rest)))
      = body ++ (str "---end---" ++ rest) := by
    rw [strDash3, hb]
    simp only [List.cons_append, dropWhile_wd_dash]
    simp [List.dropWhile_cons, hbc]
  have htake : (x ++ (str "---" ++ (body ++ (str "---end---" ++ rest)))).takeWhile isWordDash
      = x ++ str "---" := by
    rw [takeWhile_append_all hall, htail]
  have hdrop : (x ++ (str "---" ++ (body ++ (str "---end---" ++ rest)))).dropWhile isWordDash
      = body ++ (str "---end---" ++ rest) := by
    rw [dropWhile_append_all hall, hdtail]
  have hlen : (x ++ str "---").length = x.length + 3 := by simp [strDash3]
  have hk := kLoopDef_hit hx hb hbc hno
  simp only [matchDefTail, htake, hdrop, hlen, if_neg ht, hk, Option.map_some']

theorem matchDef_hit {t x body rest : Str} (ht : t ≠ []) (htc : ∀ c ∈ t, c ≠ ':')
    (hx : GoodId x) {bc : Char} {btl : Str} (hb : body = bc :: btl)
    (hbc : isWordDash bc = false)
    (hno : NoOccP (str "---end---") body (str "---end---" ++ rest)) :
    matchDef (str "---diagram:"
        ++ (t ++ ':' :: (x ++ (str "---" ++ (body ++ (str "---end---" ++ rest))))))
      = some (t, x, body, rest) := by
  unfold matchDef
  rw [stripLit_self_append, Option.some_bind]
  have hT : ∀ c ∈ t, (fun c => decide (c ≠ ':')) c = true := by
    intro c hc
    simpa using htc c hc
  rw [takeWhile_append_all hT, dropWhile_append_all hT]
  have e1 : List.takeWhile (fun c => decide (c ≠ ':'))
      (':' :: (x ++ (str "---" ++ (body ++ (str "---end---" ++ rest))))) = [] := by
    simp [List.takeWhile_cons]
  have e2 : List.dropWhile (fun c => decide (c ≠ ':'))
      (':' :: (x ++ (str "---" ++ (body ++ (str "---end---" ++ rest)))))
      = ':' :: (x ++ (str "---" ++ (body ++ (str "---end---" ++ rest)))) := by
    simp [List.dropWhile_cons]
  rw [e1, e2, List.append_nil]
  exact matchDefTail_hit ht hx hb hbc hno

/-! ## Scanner composition lemmas -/

theorem matchRef_none_of_strip {s : Str}
    (h : stripLit (str "\x7b\x7bdiagram:") s = none) : matchRef s = none := by
  unfold matchRef
  rw [h]
  rfl

theorem matchDef_none_of_strip {s : Str}
    (h : stripLit (str "---diagram:") s = none) : matchDef s = none := by
  unfold matchDef
  rw [h]
  rfl

theorem defScan_skip : ∀ (seg : Str) {tail : Str},
    NoOccP (str "---diagram:") seg tail → ∀ f, (seg ++ tail).length ≤ f →
    defScanAux f (seg ++ tail) = defScan tail := by
  intro seg
  induction seg with
  | nil =>
    intro tail _ f hf
    simp only [List.nil_append] at hf ⊢
    exact defScanAux_irrel f _ _ hf (by omega)
  | cons c cs ih =>
    intro tail hno f hf
    obtain ⟨h1, h2⟩ := hno
    cases f with
    | zero => simp at hf
    | succ g =>
      have hm : matchDef (c :: (cs ++ tail)) = none := matchDef_none_of_strip h1
      rw [show (c :: cs) ++ tail = c :: (cs ++ tail) from rfl]
      simp only [defScanAux, hm]
      simp only [List.length_cons, List.length_append] at hf
      exact ih h2 g (by simp [List.length_append]; omega)

theorem defScanAux_succ (f : Nat) (s : Str) :
    defScanAux (f + 1) s =
      match matchDef s with
      | some (t, i, c, rem) => (t, i, c) :: defScanAux f rem
      | none =>
        match s with
        | [] => []
        | _ :: rest => defScanAux f rest := rfl

theorem stripDefsAux_succ (f : Nat) (s : Str) :
    stripDefsAux (f + 1) s =
      match matchDef s with
      | some (_, _, _, rem) => stripDefsAux f rem
      | none =>
        match s with
        | [] => []
        | c :: rest => c :: stripDefsAux f rest := rfl

theorem refScanAux_succ (f : Nat) (s : Str) :
    refScanAux (f + 1) s =
      match matchRef s with
      | some (t, i, rem) => (([], t, i) :: (refScanAux f rem).1, (refScanAux f rem).2)
      | none =>
        match s with
        | [] => ([], [])
        | c :: rest =>
          match (refScanAux f rest).1 with
          | [] => ([], c :: (refScanAux f rest).2)
          | (pre, ti) :: ps2 => ((c :: pre, ti) :: ps2, (refScanAux f rest).2) := by
  cases hm : matchRef s with
  | some r =>
    obtain ⟨t, i, rem⟩ := r
    simp only [refScanAux, hm]
  | none =>
    cases s with
    | nil => simp only [refScanAux, hm]
    | cons c rest =>
      simp only [refScanAux, hm]
      cases hps : (refScanAux f rest).1 with
      | nil => rfl
      | cons p ps2 =>
        obtain ⟨p1, p2⟩ := p
        rfl

theorem defScan_match {s t i c rem : Str} (hm : matchDef s = some (t, i, c, rem)) :
    defScan s = (t, i, c) :: defScan rem := by
  have hrem := matchDef_length hm
  show defScanAux (s.length + 1) s = (t, i, c) :: defScanAux (rem.length + 1) rem
  obtain ⟨n, hL⟩ : ∃ n, s.length = n + 1 := ⟨s.length - 1, by omega⟩
  have step : defScanAux (n + 1 + 1) s = (t, i, c) :: defScanAux (n + 1) rem := by
    rw [defScanAux_succ, hm]
  rw [hL, step, defScanAux_irrel (n + 1) (rem.length + 1) rem (by omega) (by omega)]

theorem stripDefs_skip : ∀ (seg : Str) {tail : Str},
    NoOccP (str "---diagram:") seg tail → ∀ f, (seg ++ tail).length ≤ f →
    stripDefsAux f (seg ++ tail) = seg ++ stripDefs tail := by
  intro seg
  induction seg with
  | nil =>
    intro tail _ f hf
    simp only [List.nil_append] at hf ⊢
    exact stripDefsAux_irrel f _ _ hf (by omega)
  | cons c cs ih =>
    intro tail hno f hf
    obtain ⟨h1, h2⟩ := hno
    cases f with
    | zero => simp at hf
    | succ g =>
      have hm : matchDef (c :: (cs ++ tail)) = none := matchDef_none_of_strip h1
      rw [show (c :: cs) ++ tail = c :: (cs ++ tail) from rfl]
      simp only [stripDefsAux, hm]
      simp only [List.length_cons, List.length_append] at hf
      rw [ih h2 g (by simp [List.length_append]; omega)]
      rfl

theorem stripDefs_match {s t i c rem : Str} (hm : matchDef s = some (t, i, c, rem)) :
    stripDefs s = stripDefs rem := by
  have hrem := matchDef_length hm
  show stripDefsAux (s.length + 1) s = stripDefsAux (rem.length + 1) rem
  obtain ⟨n, hL⟩ : ∃ n, s.length = n + 1 := ⟨s.length - 1, by omega⟩
  have step : stripDefsAux (n + 1 + 1) s = stripDefsAux (n + 1) rem := by
    rw [stripDefsAux_succ, hm]
  rw [hL, step, stripDefsAux_irrel (n + 1) (rem.length + 1) rem (by omega) (by omega)]

/-- Prepend plain text in front of a reference-scan result. -/
def prependPlain (seg : Str) : List (Str × Str × Str) × Str → List (Str × Str × Str) × Str
  | ([], tl) => ([], seg ++ tl)
  | ((p, ti) :: ps, tl) => ((seg ++ p, ti) :: ps, tl)

theorem prependPlain_nil (r : List (Str × Str × Str) × Str) : prependPlain [] r = r := by
  obtain ⟨ps, tl⟩ := r
  cases ps with
  | nil => simp [prependPlain]
  | cons p ps2 =>
    obtain ⟨p1, p2⟩ := p
    simp [prependPlain]

theorem prependPlain_cons (c : Char) (seg : Str) (r : List (Str × Str × Str) × Str) :
    prependPlain (c :: seg) r =
      (match (prependPlain seg r).1 with
       | [] => ([], c :: (prependPlain seg r).2)
       | (pre, ti) :: ps2 => ((c :: pre, ti) :: ps2, (prependPlain seg r).2)) := by
  obtain ⟨ps, tl⟩ := r
  cases ps with
  | nil => simp [prependPlain]
  | cons p ps2 =>
    obtain ⟨p1, p2⟩ := p
    simp [prependPlain]

theorem refScan_skip : ∀ (seg : Str) {tail : Str},
    NoOccP (str "\x7b\x7bdiagram:") seg tail → ∀ f, (seg ++ tail).length ≤ f →
    refScanAux f (seg ++ tail) = prependPlain seg (refScan tail) := by
  intro seg
  induction seg with
  | nil =>
    intro tail _ f hf
    rw [prependPlain_nil]
    simp only [List.nil_append] at hf ⊢
    exact refScanAux_irrel f _ _ hf (by omega)
  | cons c cs ih =>
    intro tail hno f hf
    obtain ⟨h1, h2⟩ := hno
    cases f with
    | zero => simp at hf
    | succ g =>
      have hm : matchRef (c :: (cs ++ tail)) = none := matchRef_none_of_strip h1
      rw [show (c :: cs) ++ tail = c :: (cs ++ tail) from rfl]
      simp only [refScanAux, hm]
      simp only [List.length_cons, List.length_append] at hf
      rw [ih h2 g (by simp [List.length_append]; omega)]
      rw [prependPlain_cons]
      cases hps : (prependPlain cs (refScan tail)).1 with
      | nil => rfl
      | cons p ps2 =>
        obtain ⟨p1, p2⟩ := p
        rfl

theorem refScan_match {s t i rem : Str} (hm : matchRef s = some (t, i, rem)) :
    refScan s = (([], t, i) :: (refScan rem).1, (refScan rem).2) := by
  have hrem := matchRef_length hm
  show refScanAux (s.length + 1) s
    = (([], t, i) :: (refScanAux (rem.length + 1) rem).1, (refScanAux (rem.length + 1) rem).2)
  obtain ⟨n, hL⟩ : ∃ n, s.length = n + 1 := ⟨s.length - 1, by omega⟩
  have step : refScanAux (n + 1 + 1) s
      = (([], t, i) :: (refScanAux (n + 1) rem).1, (refScanAux (n + 1) rem).2) := by
    rw [refScanAux_succ, hm]
  rw [hL, step, refScanAux_irrel (n + 1) (rem.length + 1) rem (by omega) (by omega)]

theorem refScan_nil : refScan [] = ([], []) := refScanAux_nil _

theorem defScan_nil : defScan [] = [] := defScanAux_nil _

theorem stripDefs_nil : stripDefs [] = [] := stripDefsAux_nil _

theorem defScan_skip'' {seg tail : Str} (hno : NoOccP (str "---diagram:") seg tail) :
    defScan (seg ++ tail) = defScan tail :=
  defScan_skip seg hno _ (by omega)

theorem stripDefs_skip'' {seg tail : Str} (hno : NoOccP (str "---diagram:") seg tail) :
    stripDefs (seg ++ tail) = seg ++ stripDefs tail :=
  stripDefs_skip seg hno _ (by omega)

theorem refScan_skip'' {seg tail : Str} (hno : NoOccP (str "\x7b\x7bdiagram:") seg tail) :
    refScan (seg ++ tail) = prependPlain seg (refScan tail) :=
  refScan_skip seg hno _ (by omega)

/-! ## Lemmas about `jsTrim` -/

theorem jsTrim_cons_ws {c : Char} {s : Str} (h : isWs c = true) :
    jsTrim (c :: s) = jsTrim s := by
  unfold jsTrim
  rw [List.dropWhile_cons, if_pos h]

theorem dropWhile_append_of_ne_nil {p : Char → Bool} {s t : Str}
    (h : s.dropWhile p ≠ []) : (s ++ t).dropWhile p = s.dropWhile p ++ t := by
  induction s with
  | nil => simp [List.dropWhile] at h
  | cons c cs ih =>
    by_cases hc : p c
    · rw [List.dropWhile_cons, if_pos hc] at h
      rw [show (c :: cs) ++ t = c :: (cs ++ t) from rfl,
        List.dropWhile_cons, if_pos hc, List.dropWhile_cons, if_pos hc]
      exact ih h
    · rw [show (c :: cs) ++ t = c :: (cs ++ t) from rfl]
      rw [List.dropWhile_cons, if_neg hc, List.dropWhile_cons, if_neg hc]
      simp

theorem jsTrim_append_ws_right {s t : Str} (ht : ∀ c ∈ t, isWs c = true) :
    jsTrim (s ++ t) = jsTrim s := by
  unfold jsTrim
  by_cases h : s.dropWhile isWs = []
  · have hs : ∀ c ∈ s, isWs c = true := List.dropWhile_eq_nil_iff.mp h
    have h2 : (s ++ t).dropWhile isWs = [] := by
      rw [dropWhile_append_all hs]
      exact List.dropWhile_eq_nil_iff.mpr ht
    rw [h, h2]
  · rw [dropWhile_append_of_ne_nil h, List.reverse_append]
    rw [dropWhile_append_all (by intro c hc; exact ht c (by simpa using hc))]

theorem jsTrim_noop {s : Str}
    (hh : ∀ c, s.head? = some c → isWs c = false)
    (hl : ∀ c, s.getLast? = some c → isWs c = false) : jsTrim s = s := by
  unfold jsTrim
  have h1 : s.dropWhile isWs = s := by
    cases s with
    | nil => rfl
    | cons c cs =>
      rw [List.dropWhile_cons, if_neg (by simp [hh c rfl])]
  rw [h1]
  have h2 : s.reverse.dropWhile isWs = s.reverse := by
    cases hr : s.reverse with
    | nil => rfl
    | cons c cs =>
      have : s.getLast? = some c := by
        rw [← List.head?_reverse, hr]
        rfl
      rw [List.dropWhile_cons, if_neg (by simp [hl c this])]
  rw [h2, List.reverse_reverse]

/-! ## Lemmas about insertion-ordered maps -/

theorem mapGet_nil {α : Type} (k : Str) : mapGet ([] : List (Str × α)) k = none := rfl

theorem mapGet_cons {α : Type} (k2 : Str) (v2 : α) (rest : List (Str × α)) (k : Str) :
    mapGet ((k2, v2) :: rest) k = if k = k2 then some v2 else mapGet rest k := rfl

theorem mapSet_nil {α : Type} (k : Str) (v : α) :
    mapSet ([] : List (Str × α)) k v = [(k, v)] := rfl

theorem mapSet_cons {α : Type} (k2 : Str) (v2 : α) (rest : List (Str × α)) (k : Str) (v : α) :
    mapSet ((k2, v2) :: rest) k v =
      if k = k2 then (k2, v) :: rest else (k2, v2) :: mapSet rest k v := rfl

theorem mapKeys_nil {α : Type} : mapKeys ([] : List (Str × α)) = [] := rfl

theorem mapKeys_cons {α : Type} (k2 : Str) (v2 : α) (rest : List (Str × α)) :
    mapKeys ((k2, v2) :: rest) = k2 :: mapKeys rest := rfl

theorem mapGet_set_self {α : Type} (m : List (Str × α)) (k : Str) (v : α) :
    mapGet (mapSet m k v) k = some v := by
  induction m with
  | nil => rw [mapSet_nil, mapGet_cons, if_pos rfl]
  | cons e rest ih =>
    obtain ⟨k2, v2⟩ := e
    rw [mapSet_cons]
    by_cases h : k = k2
    · rw [if_pos h, mapGet_cons, if_pos h]
    · rw [if_neg h, mapGet_cons, if_neg h, ih]

theorem mapGet_set_ne {α : Type} (m : List (Str × α)) {k k2 : Str} (h : k2 ≠ k) (v : α) :
    mapGet (mapSet m k v) k2 = mapGet m k2 := by
  induction m with
  | nil => rw [mapSet_nil, mapGet_cons, if_neg h, mapGet_nil]
  | cons e rest ih =>
    obtain ⟨k3, v3⟩ := e
    rw [mapSet_cons]
    by_cases h2 : k = k3
    · rw [if_pos h2, mapGet_cons, mapGet_cons]
      subst h2
      rw [if_neg h, if_neg h]
    · rw [if_neg h2, mapGet_cons, mapGet_cons, ih]

theorem mapGet_none_iff {α : Type} (m : List (Str × α)) (k : Str) :
    mapGet m k = none ↔ k ∉ mapKeys m := by
  induction m with
  | nil => simp [mapGet_nil, mapKeys_nil]
  | cons e rest ih =>
    obtain ⟨k2, v2⟩ := e
    rw [mapGet_cons, mapKeys_cons]
    by_cases h : k = k2
    · simp [h]
    · simp only [if_neg h, List.mem_cons]
      rw [ih]
      constructor
      · intro hk hor
        rcases hor with hor | hor
        · exact h hor
        · exact hk hor
      · intro hk hor
        exact hk (Or.inr hor)

theorem mapSet_fresh {α : Type} {m : List (Str × α)} {k : Str}
    (h : k ∉ mapKeys m) (v : α) : mapSet m k v = m ++ [(k, v)] := by
  induction m with
  | nil => rw [mapSet_nil]; rfl
  | cons e rest ih =>
    obtain ⟨k2, v2⟩ := e
    rw [mapKeys_cons, List.mem_cons] at h
    push_neg at h
    rw [mapSet_cons, if_neg h.1, ih h.2]
    rfl

theorem mapKeys_set_mem {α : Type} {m : List (Str × α)} {k : Str}
    (h : k ∈ mapKeys m) (v : α) : mapKeys (mapSet m k v) = mapKeys m := by
  induction m with
  | nil => rw [mapKeys_nil] at h; cases h
  | cons e rest ih =>
    obtain ⟨k2, v2⟩ := e
    rw [mapSet_cons]
    by_cases h2 : k = k2
    · rw [if_pos h2, mapKeys_cons, mapKeys_cons]
    · rw [if_neg h2, mapKeys_cons, mapKeys_cons]
      rw [mapKeys_cons, List.mem_cons] at h
      rcases h with h | h
      · exact absurd h h2
      · rw [ih h]

/-! ## Claim-support definitions -/

/-- The content of a parse result (empty when parsing failed). -/
def resultContent (r : ParseResult) : Str :=
  match r.parsedDiagram with
  | some p => p.content
  | none => []

/-- The error message of a parse result (empty when there is none). -/
def resultErrMsg (r : ParseResult) : Str :=
  match r.error with
  | some e => e.message
  | none => []

/-- Source exercising a reference inside a `click` statement (the
interactive link-statement context of the spec), with an explicit type
on the reference as the source's regex requires. -/
def linkClickSource : Str :=
  str "flowchart TD\n  A --> D\n  click D \"\x7b\x7bdiagram:sequence:x\x7d\x7d\"\n\n---diagram:sequence:x---\nsequenceDiagram\n  U->>S: hi\n---end---\n"

/-- Source with a type-less (simplified-syntax) reference `\x7b\x7bdiagram:test\x7d\x7d`
and a typed definition for `test`. -/
def simplifiedRefSource : Str :=
  str "flowchart TD\n  A --> \x7b\x7bdiagram:test\x7d\x7d\n\n---diagram:sequence:test---\nsequenceDiagram\n  U->>S: hi\n---end---\n"

/-- The P3 template: a root with a single typed reference to id `x` and
no definition blocks at all. -/
def refOnlySource (x : Str) : Str :=
  str "flowchart TD\n  A --> \x7b\x7bdiagram:flowchart:" ++ x ++ str "\x7d\x7d\n"

/-- The main content of `refOnlySource x` (definitions stripped, trimmed). -/
def refOnlyMain (x : Str) : Str :=
  str "flowchart TD\n  A --> \x7b\x7bdiagram:flowchart:" ++ x ++ str "\x7d\x7d"

/-- Source whose root references both the cyclic definition `a` and the
undefined id `zzz`; the cycle is hit first. -/
def cycleShadowsMissingSource : Str :=
  str "flowchart TD\n  A --> \x7b\x7bdiagram:flowchart:a\x7d\x7d\n  B --> \x7b\x7bdiagram:flowchart:zzz\x7d\x7d\n\n---diagram:flowchart:a---\nflowchart LR\n  P --> \x7b\x7bdiagram:flowchart:b\x7d\x7d\n---end---\n\n---diagram:flowchart:b---\nflowchart LR\n  Q --> \x7b\x7bdiagram:flowchart:a\x7d\x7d\n---end---\n"

/-- A definition block for id `i` whose body references id `j`. -/
def defBlockRef (i j : Str) : Str :=
  str "---diagram:flowchart:" ++ i ++ str "---\n" ++ refOnlyMain j ++ str "\n---end---"

/-- Mutually-referencing definitions `a` and `b`, with the root reaching
`a` (the P4 scenario); the nesting of the appends mirrors the scan steps. -/
def srcReach (a b : Str) : Str :=
  (refOnlySource a ++ str "\n")
    ++ (defBlockRef a b ++ (str "\n\n" ++ (defBlockRef b a ++ str "\n")))

/-- The registry extracted from `srcReach a b`. -/
def regR (a b : Str) : RegistryT := [(a, refOnlyMain b), (b, refOnlyMain a)]

/-- A reference-free diagram body. -/
def plainMain : Str := str "flowchart TD\n  A --> B"

/-- A definition block for id `i` with a reference-free body. -/
def defBlockPlain (i : Str) : Str :=
  str "---diagram:flowchart:" ++ i ++ str "---\n" ++ plainMain ++ str "\n---end---"

/-- The i-th chain id: `i` copies of `d` (distinct by length). -/
def chainId (i : Nat) : Str := List.replicate i 'd'

/-- The ancestor path after descending `d` chain levels. -/
def chainPath : Nat → List Str
  | 0 => []
  | d+1 => chainPath d ++ [chainId (d+1)]

/-- Definition blocks for chain ids `i .. i+k`, each referencing the
next, the last one reference-free. -/
def chainBlocksAux : Nat → Nat → Str
  | 0, i => defBlockPlain (chainId i) ++ str "\n"
  | k+1, i => defBlockRef (chainId i) (chainId (i+1)) ++ (str "\n\n" ++ chainBlocksAux k (i+1))

/-- The P5 template: a root referencing chain id 1 and a linear chain of
`n` definitions, each embedding the next. -/
def chainSource (n : Nat) : Str :=
  (refOnlySource (chainId 1) ++ str "\n") ++ chainBlocksAux (n-1) 1

/-- The definition-scan of `chainBlocksAux`. -/
def scanCAux : Nat → Nat → List (Str × Str × Str)
  | 0, i => [(str "flowchart", chainId i, '\n' :: (plainMain ++ ['\n']))]
  | k+1, i => (str "flowchart", chainId i, '\n' :: (refOnlyMain (chainId (i+1)) ++ ['\n']))
      :: scanCAux k (i+1)

/-- The registry extracted from the chain (ids `i .. i+k`). -/
def regCAux : Nat → Nat → RegistryT
  | 0, i => [(chainId i, plainMain)]
  | k+1, i => (chainId i, refOnlyMain (chainId (i+1))) :: regCAux k (i+1)

/-- The registry extracted from `chainSource n`. -/
def regC (n : Nat) : RegistryT := regCAux (n-1) 1

/-- The warning recorded when entering chain depth `d`. -/
def chainWarning (d : Nat) : NestingWarning :=
  { diagramId := chainId d, currentDepth := d, maxDepth := 10, path := chainPath d }

/-- The warnings produced from chain depth `d` up to the cap. -/
def wFrom (d : Nat) : List NestingWarning :=
  ((List.range' d (11 - d)).filter (fun i => 7 ≤ i)).map chainWarning

/-- The warnings of a successful (or capped) chain of `n` definitions:
one per depth in `7 .. min n 10`. -/
def wChain (n : Nat) : List NestingWarning :=
  (List.range' 7 (min n 10 + 1 - 7)).map chainWarning

/-- Mutually-referencing definitions `a` and `b` that the root never
references. -/
def srcUnreachC : Str :=
  str "flowchart TD\n  A --> B\n\n---diagram:flowchart:a---\nflowchart LR\n  P --> \x7b\x7bdiagram:flowchart:b\x7d\x7d\n---end---\n\n---diagram:flowchart:b---\nflowchart LR\n  Q --> \x7b\x7bdiagram:flowchart:a\x7d\x7d\n---end---\n"

/-- Source whose root references the undefined id `zzz` while also
carrying a perfectly valid definition for `a` (so a nonempty dependency
report is buildable from this pass's extraction). -/
def missingRefWithDefSource : Str :=
  str "flowchart TD\n  A --> \x7b\x7bdiagram:flowchart:zzz\x7d\x7d\n\n---diagram:flowchart:a---\nflowchart LR\n  X --> Y\n---end---\n"

/-! ## Claim C10 -/

/-- C10: `hasDependency` is reflexive for every input id, registered or
not: the explicit-stack DFS pops the start id first, marks it visited and
immediately compares it against the target, so `hasDependency g a a`
returns `true` for every graph `g` and every string `a`. -/
theorem hasDependency_self_reflexive (g : Graph) (a : Str) :
    hasDependency g a a = true := by
  unfold hasDependency
  rw [show 2 * topoFuel g + g.length + 2 = (2 * topoFuel g + g.length + 1) + 1 from rfl]
  simp [hasDependencyAux, setHas]

/-! ## Claim C1 -/

set_option maxRecDepth 8000 in
/-- C1 (code evidence for the code_bug verdict): on a source whose root
content contains the reference `\x7b\x7bdiagram:sequence:x\x7d\x7d` inside the quotes of
a `click` statement, the processor does *not* substitute the bare id into
the existing quotes; it substitutes the quoted id `"x"` (yielding
`click D ""x""`) and appends a duplicate `click x "x"` statement, while
the repository's own tests and docs require `click D "x"`. -/
theorem link_statement_substitution_is_double_quoted :
    ((parseNestedSyntax emptyState linkClickSource).1.success = true)
    ∧ (containsSub (str "click D \"\x7b\x7bdiagram:sequence:x\x7d\x7d\"")
        (extractMainDiagramContent linkClickSource) = true)
    ∧ (containsSub (str "click D \"\"x\"\"")
        (resultContent (parseNestedSyntax emptyState linkClickSource).1) = true)
    ∧ (containsSub (str "click D \"x\"")
        (resultContent (parseNestedSyntax emptyState linkClickSource).1) = false)
    ∧ (containsSub (str "\n    click x \"x\"")
        (resultContent (parseNestedSyntax emptyState linkClickSource).1) = true) := by
  refine ⟨by decide, by decide, by decide, by decide, by decide⟩

/-! ## Claim C2 -/

set_option maxRecDepth 8000 in
/-- C2 (code evidence for the code_bug verdict): a type-less reference
`\x7b\x7bdiagram:test\x7d\x7d` is not recognized as a reference site by the source's
regex (which requires an explicit type), so the parse succeeds without
resolving it: no nested diagram is produced, the marker is left verbatim
in the rewritten content, and no type detection is attempted — although
the definition `test` itself was registered.  The repository's tests
require the reference to be recognized and auto-typed. -/
theorem typeless_reference_not_recognized :
    ((parseNestedSyntax emptyState simplifiedRefSource).1.success = true)
    ∧ (((parseNestedSyntax emptyState simplifiedRefSource).1.parsedDiagram.elim 0
         (fun p => p.nestedDiagrams.length)) = 0)
    ∧ (containsSub (str "\x7b\x7bdiagram:test\x7d\x7d")
        (resultContent (parseNestedSyntax emptyState simplifiedRefSource).1) = true)
    ∧ (mapGet (parseNestedSyntax emptyState simplifiedRefSource).2.diagramRegistry
        (str "test") = some (str "sequenceDiagram\n  U->>S: hi")) := by
  refine ⟨by decide, by decide, by decide, by decide⟩

/-! ## Claim C8 -/

/-- `linkClickSource` with the body of definition `x` modified. -/
def modifiedLinkClickSource : Str :=
  str "flowchart TD\n  A --> D\n  click D \"\x7b\x7bdiagram:sequence:x\x7d\x7d\"\n\n---diagram:sequence:x---\nsequenceDiagram\n  U->>S: bye\n---end---\n"

theorem hasContentChanged_bool (reg : RegistryT) (code : Str) :
    hasContentChanged reg code =
      ((extractDiagramDefinitions code).any (fun e => ¬ (mapGet reg e.1 = some e.2))
        || reg.any (fun e => ¬ mapHas (extractDiagramDefinitions code) e.1)) := by
  unfold hasContentChanged
  by_cases h1 : (extractDiagramDefinitions code).any
      (fun e => ¬ (mapGet reg e.1 = some e.2)) = true
  · simp [h1]
  · by_cases h2 : reg.any (fun e => ¬ mapHas (extractDiagramDefinitions code) e.1) = true
    · simp [h1, h2]
    · simp [h1, h2]

set_option maxRecDepth 8000 in
/-- C8: the change tracker returns true exactly when some extracted
definition's trimmed body differs from the registry entry of the same id
(modified), or some registered id is absent from the new extraction
(removed), or an extracted id is not in the registry at all (added);
in particular it flags a modified definition body and accepts the
byte-identical source after a pass over `linkClickSource`. -/
theorem hasContentChanged_characterization :
    (∀ (reg : RegistryT) (code : Str),
      hasContentChanged reg code = true ↔
        ((∃ p ∈ extractDiagramDefinitions code,
            ∃ c', mapGet reg p.1 = some c' ∧ c' ≠ p.2)
         ∨ (∃ p ∈ reg, mapGet (extractDiagramDefinitions code) p.1 = none)
         ∨ (∃ p ∈ extractDiagramDefinitions code, mapGet reg p.1 = none)))
    ∧ (hasContentChanged
        (parseNestedSyntax emptyState linkClickSource).2.diagramRegistry
        modifiedLinkClickSource = true)
    ∧ (hasContentChanged
        (parseNestedSyntax emptyState linkClickSource).2.diagramRegistry
        linkClickSource = false) := by
  refine ⟨?_, by decide, by decide⟩
  intro reg code
  rw [hasContentChanged_bool, Bool.or_eq_true, List.any_eq_true, List.any_eq_true]
  constructor
  · intro h
    rcases h with ⟨p, hp, hne⟩ | ⟨p, hp, hnot⟩
    · cases hget : mapGet reg p.1 with
      | none => exact Or.inr (Or.inr ⟨p, hp, hget⟩)
      | some c' =>
        refine Or.inl ⟨p, hp, c', hget, ?_⟩
        intro e
        subst e
        rw [hget] at hne
        simp at hne
    · refine Or.inr (Or.inl ⟨p, hp, ?_⟩)
      simp only [mapHas, decide_not] at hnot
      cases hcur : mapGet (extractDiagramDefinitions code) p.1 with
      | none => rfl
      | some c =>
        rw [hcur] at hnot
        simp at hnot
  · intro h
    rcases h with ⟨p, hp, c', hget, hne⟩ | ⟨p, hp, hnone⟩ | ⟨p, hp, hnone⟩
    · refine Or.inl ⟨p, hp, ?_⟩
      rw [hget]
      simpa using hne
    · refine Or.inr ⟨p, hp, ?_⟩
      simp [mapHas, hnone]
    · refine Or.inl ⟨p, hp, ?_⟩
      rw [hnone]
      simp

/-! ## Claim C6: the dependency-graph invariants -/

theorem mapGet_some_mem {α : Type} {m : List (Str × α)} {k : Str} {v : α}
    (h : mapGet m k = some v) : k ∈ mapKeys m := by
  by_contra hk
  rw [← mapGet_none_iff] at hk
  rw [h] at hk
  cases hk

theorem mapGet_mem_some {α : Type} {m : List (Str × α)} {k : Str}
    (h : k ∈ mapKeys m) : ∃ v, mapGet m k = some v := by
  cases hg : mapGet m k with
  | none => exact absurd ((mapGet_none_iff m k).mp hg) (by simpa using h)
  | some v => exact ⟨v, rfl⟩

theorem mapKeys_append {α : Type} (a b : List (Str × α)) :
    mapKeys (a ++ b) = mapKeys a ++ mapKeys b := by
  simp [mapKeys]

theorem foldl_mapSet_nodup {β : Type} (f : Str × Str → β) :
    ∀ (l : RegistryT) (acc : List (Str × β)),
      (mapKeys l).Nodup → (∀ k ∈ mapKeys l, k ∉ mapKeys acc) →
      l.foldl (fun g e => mapSet g e.1 (f e)) acc
        = acc ++ l.map (fun e => (e.1, f e)) := by
  intro l
  induction l with
  | nil => intro acc _ _; simp
  | cons e rest ih =>
    intro acc hnd hdisj
    rw [mapKeys_cons] at hnd hdisj
    simp only [List.foldl_cons, List.map_cons]
    rw [mapSet_fresh (hdisj e.1 (by simp)) (f e)]
    rw [ih (acc ++ [(e.1, f e)]) (by exact hnd.of_cons) ?_]
    · simp
    · intro k hk
      rw [mapKeys_append]
      simp only [List.mem_append]
      push_neg
      constructor
      · exact hdisj k (by simp [hk])
      · have : k ≠ e.1 := by
          intro e2
          subst e2
          exact (List.nodup_cons.mp hnd).1 hk
        simpa [mapKeys] using this

/-- Node monotonicity statement used through the edge-building pass:
keys are unchanged, dependency lists are unchanged, dependents only grow. -/
def GraphMono (g g' : Graph) : Prop :=
  mapKeys g' = mapKeys g ∧
  ∀ x nx, mapGet g x = some nx → ∃ nx', mapGet g' x = some nx'
    ∧ nx'.id = nx.id ∧ nx'.dependencies = nx.dependencies
    ∧ (∀ y ∈ nx.dependents, y ∈ nx'.dependents)

theorem graphMono_refl (g : Graph) : GraphMono g g :=
  ⟨Eq.refl _, fun x nx h => ⟨nx, h, Eq.refl _, Eq.refl _, fun _ hy => hy⟩⟩

theorem GraphMono.trans {g1 g2 g3 : Graph} (h1 : GraphMono g1 g2)
    (h2 : GraphMono g2 g3) : GraphMono g1 g3 := by
  refine ⟨h2.1.trans h1.1, ?_⟩
  intro x nx h
  obtain ⟨n2, hg2, hid2, hd2, hdep2⟩ := h1.2 x nx h
  obtain ⟨n3, hg3, hid3, hd3, hdep3⟩ := h2.2 x n2 hg2
  exact ⟨n3, hg3, hid3.trans hid2, hd3.trans hd2, fun y hy => hdep3 y (hdep2 y hy)⟩

theorem pushDependent_eq_none {g2 : Graph} {d : Str} (a : Str)
    (h : mapGet g2 d = none) : pushDependent a g2 d = g2 := by
  unfold pushDependent
  rw [h]

theorem pushDependent_eq_some {g2 : Graph} {d : Str} {depNode : DepNode} (a : Str)
    (h : mapGet g2 d = some depNode) :
    pushDependent a g2 d =
      if jsIncludes depNode.dependents a then g2
      else mapSet g2 d { depNode with dependents := depNode.dependents ++ [a] } := by
  unfold pushDependent
  rw [h]

theorem addEntryEdges_eq_none {g : Graph} {e : Str × Str}
    (h : mapGet g e.1 = none) : addEntryEdges g e = g := by
  unfold addEntryEdges
  rw [h]

theorem addEntryEdges_eq_some {g : Graph} {e : Str × Str} {node : DepNode}
    (h : mapGet g e.1 = some node) :
    addEntryEdges g e = (extractDependencies e.2).foldl (pushDependent e.1)
      (mapSet g e.1 { node with dependencies := extractDependencies e.2 }) := by
  unfold addEntryEdges
  rw [h]

theorem pushDependent_mono (a : Str) (g2 : Graph) (d : Str) :
    GraphMono g2 (pushDependent a g2 d) := by
  cases hg : mapGet g2 d with
  | none =>
    rw [pushDependent_eq_none a hg]
    exact graphMono_refl g2
  | some depNode =>
    rw [pushDependent_eq_some a hg]
    by_cases hi : jsIncludes depNode.dependents a
    · rw [if_pos hi]
      exact graphMono_refl g2
    · rw [if_neg hi]
      constructor
      · exact mapKeys_set_mem (mapGet_some_mem hg) _
      · intro x nx h
        by_cases hx : x = d
        · subst hx
          rw [hg] at h
          injection h with h
          subst h
          refine ⟨_, mapGet_set_self g2 x _, rfl, rfl, ?_⟩
          intro y hy
          simp [hy]
        · exact ⟨nx, by rw [mapGet_set_ne g2 hx _]; exact h, rfl, rfl, fun _ hy => hy⟩

theorem pushDependent_adds (a : Str) (g2 : Graph) (d : Str) (hk : d ∈ mapKeys g2) :
    ∃ nd, mapGet (pushDependent a g2 d) d = some nd ∧ a ∈ nd.dependents := by
  obtain ⟨depNode, hg⟩ := mapGet_mem_some hk
  rw [pushDependent_eq_some a hg]
  by_cases hi : jsIncludes depNode.dependents a
  · rw [if_pos hi]
    exact ⟨depNode, hg, by simpa [jsIncludes] using hi⟩
  · rw [if_neg hi]
    exact ⟨_, mapGet_set_self g2 d _, by simp⟩

theorem innerFold_mono (a : Str) :
    ∀ (ds : List Str) (g2 : Graph), GraphMono g2 (ds.foldl (pushDependent a) g2) := by
  intro ds
  induction ds with
  | nil => intro g2; exact graphMono_refl g2
  | cons d rest ih =>
    intro g2
    rw [List.foldl_cons]
    exact (pushDependent_mono a g2 d).trans (ih (pushDependent a g2 d))

theorem innerFold_adds (a : Str) :
    ∀ (ds : List Str) (g2 : Graph) (b : Str), b ∈ ds → b ∈ mapKeys g2 →
      ∃ nb, mapGet (ds.foldl (pushDependent a) g2) b = some nb ∧ a ∈ nb.dependents := by
  intro ds
  induction ds with
  | nil => intro g2 b hb _; cases hb
  | cons d rest ih =>
    intro g2 b hb hbk
    rw [List.foldl_cons]
    rcases List.mem_cons.mp hb with hb | hb
    · subst hb
      obtain ⟨nd, hnd, hand⟩ := pushDependent_adds a g2 b hbk
      obtain ⟨nd', hnd', _, _, hdep⟩ := (innerFold_mono a rest _).2 b nd hnd
      exact ⟨nd', hnd', hdep a hand⟩
    · refine ih (pushDependent a g2 d) b hb ?_
      rw [(pushDependent_mono a g2 d).1]
      exact hbk

theorem addEntryEdges_keys (g : Graph) (e : Str × Str) :
    mapKeys (addEntryEdges g e) = mapKeys g := by
  cases hg : mapGet g e.1 with
  | none => rw [addEntryEdges_eq_none hg]
  | some node =>
    rw [addEntryEdges_eq_some hg]
    rw [(innerFold_mono e.1 (extractDependencies e.2) _).1]
    exact mapKeys_set_mem (mapGet_some_mem hg) _

theorem addEntryEdges_mono_other (g : Graph) (e : Str × Str) :
    ∀ x nx, x ≠ e.1 → mapGet g x = some nx →
      ∃ nx', mapGet (addEntryEdges g e) x = some nx'
        ∧ nx'.dependencies = nx.dependencies
        ∧ (∀ y ∈ nx.dependents, y ∈ nx'.dependents) := by
  intro x nx hx h
  cases hg : mapGet g e.1 with
  | none =>
    rw [addEntryEdges_eq_none hg]
    exact ⟨nx, h, rfl, fun _ hy => hy⟩
  | some node =>
    rw [addEntryEdges_eq_some hg]
    have h1 : mapGet (mapSet g e.1 { node with
        dependencies := extractDependencies e.2 }) x = some nx := by
      rw [mapGet_set_ne g hx _]
      exact h
    obtain ⟨nx', hg', _, hd, hdep⟩ :=
      (innerFold_mono e.1 (extractDependencies e.2) _).2 x nx h1
    exact ⟨nx', hg', hd, hdep⟩

theorem addEntryEdges_mono_dependents (g : Graph) (e : Str × Str) :
    ∀ x nx, mapGet g x = some nx →
      ∃ nx', mapGet (addEntryEdges g e) x = some nx'
        ∧ (∀ y ∈ nx.dependents, y ∈ nx'.dependents) := by
  intro x nx h
  by_cases hx : x = e.1
  · subst hx
    rw [addEntryEdges_eq_some h]
    have h1 : mapGet (mapSet g e.1 { nx with
        dependencies := extractDependencies e.2 }) e.1
        = some { nx with dependencies := extractDependencies e.2 } :=
      mapGet_set_self g e.1 _
    obtain ⟨nx', hg', _, _, hdep⟩ :=
      (innerFold_mono e.1 (extractDependencies e.2) _).2 e.1 _ h1
    exact ⟨nx', hg', fun y hy => hdep y hy⟩
  · obtain ⟨nx', hg', _, hdep⟩ := addEntryEdges_mono_other g e x nx hx h
    exact ⟨nx', hg', hdep⟩

theorem addEntryEdges_self (g : Graph) (e : Str × Str) (he : e.1 ∈ mapKeys g) :
    ∃ na, mapGet (addEntryEdges g e) e.1 = some na
      ∧ na.dependencies = extractDependencies e.2
      ∧ ∀ b ∈ extractDependencies e.2, b ∈ mapKeys g →
          ∃ nb, mapGet (addEntryEdges g e) b = some nb ∧ e.1 ∈ nb.dependents := by
  obtain ⟨node, hg⟩ := mapGet_mem_some he
  rw [addEntryEdges_eq_some hg]
  have h1 : mapGet (mapSet g e.1 { node with
      dependencies := extractDependencies e.2 }) e.1
      = some { node with dependencies := extractDependencies e.2 } :=
    mapGet_set_self g e.1 _
  obtain ⟨na, hna, _, hd, _⟩ :=
    (innerFold_mono e.1 (extractDependencies e.2) _).2 e.1 _ h1
  refine ⟨na, hna, hd, ?_⟩
  intro b hb hbk
  refine innerFold_adds e.1 (extractDependencies e.2) _ b hb ?_
  rw [mapKeys_set_mem he _]
  exact hbk

theorem outerFold_keys : ∀ (l : RegistryT) (g : Graph),
    mapKeys (l.foldl addEntryEdges g) = mapKeys g := by
  intro l
  induction l with
  | nil => intro g; rfl
  | cons e rest ih =>
    intro g
    rw [List.foldl_cons, ih, addEntryEdges_keys]

theorem outerFold_mono_dependents : ∀ (l : RegistryT) (g : Graph),
    ∀ x nx, mapGet g x = some nx →
      ∃ nx', mapGet (l.foldl addEntryEdges g) x = some nx'
        ∧ (∀ y ∈ nx.dependents, y ∈ nx'.dependents) := by
  intro l
  induction l with
  | nil => intro g x nx h; exact ⟨nx, h, fun _ hy => hy⟩
  | cons e rest ih =>
    intro g x nx h
    rw [List.foldl_cons]
    obtain ⟨nx1, h1, hdep1⟩ := addEntryEdges_mono_dependents g e x nx h
    obtain ⟨nx2, h2, hdep2⟩ := ih (addEntryEdges g e) x nx1 h1
    exact ⟨nx2, h2, fun y hy => hdep2 y (hdep1 y hy)⟩

theorem outerFold_mono_other : ∀ (l : RegistryT) (g : Graph) (x : Str),
    (∀ e ∈ l, e.1 ≠ x) → ∀ nx, mapGet g x = some nx →
      ∃ nx', mapGet (l.foldl addEntryEdges g) x = some nx'
        ∧ nx'.dependencies = nx.dependencies
        ∧ (∀ y ∈ nx.dependents, y ∈ nx'.dependents) := by
  intro l
  induction l with
  | nil => intro g x _ nx h; exact ⟨nx, h, rfl, fun _ hy => hy⟩
  | cons e rest ih =>
    intro g x hne nx h
    rw [List.foldl_cons]
    obtain ⟨nx1, h1, hd1, hdep1⟩ :=
      addEntryEdges_mono_other g e x nx (fun he => (hne e (by simp)) he.symm) h
    obtain ⟨nx2, h2, hd2, hdep2⟩ :=
      ih (addEntryEdges g e) x (fun e2 he2 => hne e2 (by simp [he2])) nx1 h1
    exact ⟨nx2, h2, hd2.trans hd1, fun y hy => hdep2 y (hdep1 y hy)⟩

theorem outerFold_establish : ∀ (l : RegistryT) (g : Graph),
    (mapKeys l).Nodup → (∀ e ∈ l, e.1 ∈ mapKeys g) →
    ∀ e ∈ l, ∃ na, mapGet (l.foldl addEntryEdges g) e.1 = some na
      ∧ na.dependencies = extractDependencies e.2
      ∧ ∀ b ∈ extractDependencies e.2, b ∈ mapKeys g →
          ∃ nb, mapGet (l.foldl addEntryEdges g) b = some nb ∧ e.1 ∈ nb.dependents := by
  intro l
  induction l with
  | nil => intro g _ _ e he; cases he
  | cons e0 rest ih =>
    intro g hnd hkeys e he
    rw [List.foldl_cons]
    rcases List.mem_cons.mp he with he | he
    · subst he
      obtain ⟨na, hna, hd, hpush⟩ :=
        addEntryEdges_self g e (hkeys e (by simp))
      have hrest_ne : ∀ e2 ∈ rest, e2.1 ≠ e.1 := by
        intro e2 he2 heq
        rw [mapKeys_cons] at hnd
        exact (List.nodup_cons.mp hnd).1 (heq ▸ List.mem_map_of_mem (·.1) he2)
      obtain ⟨na', hna', hd', _⟩ :=
        outerFold_mono_other rest (addEntryEdges g e) e.1 hrest_ne na hna
      refine ⟨na', hna', hd'.trans hd, ?_⟩
      intro b hb hbk
      obtain ⟨nb, hnb, hmem⟩ := hpush b hb hbk
      obtain ⟨nb', hnb', hdep⟩ :=
        outerFold_mono_dependents rest (addEntryEdges g e) b nb hnb
      exact ⟨nb', hnb', hdep e.1 hmem⟩
    · have hkeys' : ∀ e2 ∈ rest, e2.1 ∈ mapKeys (addEntryEdges g e0) := by
        intro e2 he2
        rw [addEntryEdges_keys]
        exact hkeys e2 (by simp [he2])
      have hnd' : (mapKeys rest).Nodup := by
        rw [mapKeys_cons] at hnd
        exact hnd.of_cons
      obtain ⟨na, hna, hd, hpush⟩ := ih (addEntryEdges g e0) hnd' hkeys' e he
      refine ⟨na, hna, hd, ?_⟩
      intro b hb hbk
      refine hpush b hb ?_
      rw [addEntryEdges_keys]
      exact hbk

/-- A concrete two-entry registry (diagram `a` references diagram `b`). -/
def regW : RegistryT :=
  [(str "a", str "flowchart TD\n  A --> \x7b\x7bdiagram:flowchart:b\x7d\x7d"),
   (str "b", str "flowchart LR\n  X --> Y")]

/-- C6: for every registry (with the `Map`-guaranteed unique keys), the
built dependency graph has a node for every registered id (including
isolated ones), and satisfies the symmetric-edge invariant: whenever `b`
is listed among the dependencies of `a`'s node and `b` has a node, `a` is
listed among the dependents of `b`'s node. -/
theorem buildDependencyGraph_invariants (reg : RegistryT)
    (hnd : (mapKeys reg).Nodup) :
    (∀ id ∈ mapKeys reg, ∃ node, mapGet (buildDependencyGraph reg) id = some node)
    ∧ (∀ a na b nb, mapGet (buildDependencyGraph reg) a = some na →
        b ∈ na.dependencies → mapGet (buildDependencyGraph reg) b = some nb →
        a ∈ nb.dependents) := by
  have hg0 : reg.foldl (fun g e =>
      mapSet g e.1 { id := e.1, dependencies := [], dependents := [] }) ([] : Graph)
      = reg.map (fun e =>
          (e.1, ({ id := e.1, dependencies := [], dependents := [] } : DepNode))) := by
    have h := foldl_mapSet_nodup
      (fun e => ({ id := e.1, dependencies := [], dependents := [] } : DepNode))
      reg [] hnd (by intro k _ hk; simp [mapKeys] at hk)
    simpa using h
  have hkeys0 : mapKeys (reg.foldl (fun g e =>
      mapSet g e.1 { id := e.1, dependencies := [], dependents := [] }) ([] : Graph))
      = mapKeys reg := by
    rw [hg0]
    simp [mapKeys]
  have hkeysG : mapKeys (buildDependencyGraph reg) = mapKeys reg := by
    unfold buildDependencyGraph
    rw [outerFold_keys, hkeys0]
  constructor
  · intro id hid
    exact mapGet_mem_some (by rw [hkeysG]; exact hid)
  · intro a na b nb hga hb hgb
    have hG : buildDependencyGraph reg = reg.foldl addEntryEdges
        (reg.foldl (fun g e =>
          mapSet g e.1 { id := e.1, dependencies := [], dependents := [] }) []) := rfl
    have haK : a ∈ mapKeys reg := by
      rw [← hkeysG]
      exact mapGet_some_mem hga
    have hbK : b ∈ mapKeys reg := by
      rw [← hkeysG]
      exact mapGet_some_mem hgb
    obtain ⟨ea, hea, rfl⟩ := List.mem_map.mp (show a ∈ reg.map (·.1) from haK)
    obtain ⟨na', hna', hd', hpush⟩ := outerFold_establish reg _ hnd
      (by intro e2 he2; rw [hkeys0]; exact List.mem_map_of_mem (·.1) he2) ea hea
    rw [← hG] at hna'
    have hna_eq : na' = na := by
      have h2 := hna'.symm.trans hga
      injection h2
    subst hna_eq
    have hbdeps : b ∈ extractDependencies ea.2 := by
      rw [← hd']
      exact hb
    obtain ⟨nb', hnb', hmem⟩ := hpush b hbdeps (by rw [hkeys0]; exact hbK)
    rw [← hG] at hnb'
    have hnb_eq : nb' = nb := by
      have h2 := hnb'.symm.trans hgb
      injection h2
    subst hnb_eq
    exact hmem

/-! ## Claim C5 -/

/-- One unfolding step of `processNestedReferences`, with the local
bindings of the body substituted; used to execute the root call
symbolically. -/
theorem processNR_succ (reg : RegistryT) (fuel : Nat) (content : Str)
    (parentReferences : List Str) (depth : Nat) (ws0 : List NestingWarning) :
    processNestedReferences reg (fuel+1) content parentReferences depth ws0 =
      if MAX_NESTING_DEPTH < depth then
        (Except.error (JsThrown.jsError (str "Maximum nesting depth (10) exceeded")), ws0)
      else
        match ((refScan content).1.map (fun p => (p.2.1, p.2.2))).foldl (fun acc r =>
            match acc with
            | (Except.error e, ws) => (Except.error e, ws)
            | (Except.ok nested, ws) =>
              if ¬ isValidDiagramType r.1 then
                (Except.error (JsThrown.jsError (str "Invalid diagram type: " ++ r.1)), ws)
              else
                match mapGet reg r.2 with
                | none =>
                  (Except.error (JsThrown.jsError
                    (str "Referenced diagram not found: " ++ r.2)), ws)
                | some diagramCode =>
                  if jsIncludes parentReferences r.2 then
                    (Except.error (JsThrown.jsDiagramError
                      { type := ErrType.nestedError,
                        message := str "Circular reference detected: "
                          ++ joinArrow (parentReferences ++ [r.2]) }), ws)
                  else
                    match processNestedReferences reg fuel diagramCode
                        (parentReferences ++ [r.2]) (depth+1) ws with
                    | (Except.error e, ws2) => (Except.error e, ws2)
                    | (Except.ok pr, ws2) =>
                      (Except.ok (mapSet nested r.2
                        (ParsedDiagram.mk r.1 pr.1 pr.2 (parentReferences ++ [r.2]))), ws2))
          (Except.ok [], if WARNING_NESTING_DEPTH ≤ depth ∧ parentReferences ≠ [] then
              ws0 ++ [{ diagramId := parentReferences.getLast?.getD [],
                        currentDepth := depth, maxDepth := MAX_NESTING_DEPTH,
                        path := parentReferences }]
            else ws0) with
        | (Except.error e, ws) => (Except.error e, ws)
        | (Except.ok nested, ws) =>
          (Except.ok (
            (if ((refScan content).1.map (fun p => (p.2.1, p.2.2))).map (fun r =>
                str "    click " ++ r.2 ++ str " \"" ++ r.2 ++ str "\"") ≠ [] then
              joinPieces (refScan content).1 (refScan content).2 ++ str "\n"
                ++ List.intercalate (str "\n")
                    (((refScan content).1.map (fun p => (p.2.1, p.2.2))).map (fun r =>
                      str "    click " ++ r.2 ++ str " \"" ++ r.2 ++ str "\""))
            else joinPieces (refScan content).1 (refScan content).2), nested), ws) := rfl

theorem refOnly_defScan (x : Str) (hx : GoodId x) :
    defScan (refOnlySource x) = [] := by
  have hsplit : refOnlySource x
      = (str "flowchart TD\n  A --> \x7b\x7bdiagram:flowchart:"
          ++ (x ++ str "\x7d\x7d\n")) ++ [] := by
    simp [refOnlySource, List.append_assoc]
  have hno : NoOccP (str "---diagram:")
      (str "flowchart TD\n  A --> \x7b\x7bdiagram:flowchart:" ++ (x ++ str "\x7d\x7d\n")) [] := by
    refine NoOccP_append ?_ (NoOccP_append ?_ ?_)
    · exact NoOccP_of_allSuffixClash (by decide) _
    · exact NoOccP_of_run ⟨str "--diagram:", rfl⟩
        (fun c hc => IsIdChar_ne (hx.2 c hc) (by decide)) _
    · exact NoOccP_of_allSuffixClash (by decide) _
  rw [hsplit, defScan_skip'' hno, defScan_nil]

theorem refOnly_registry (x : Str) (hx : GoodId x) :
    extractDiagramDefinitions (refOnlySource x) = [] := by
  unfold extractDiagramDefinitions
  rw [refOnly_defScan x hx]
  rfl

theorem refOnlyMain_trim (x : Str) (hx : GoodId x) :
    jsTrim (refOnlyMain x) = refOnlyMain x := by
  apply jsTrim_noop
  · intro c hc
    have h : (refOnlyMain x).head? = some 'f' := rfl
    rw [h] at hc
    injection hc with hc
    subst hc
    rfl
  · intro c hc
    have hL : refOnlyMain x
        = (str "flowchart TD\n  A --> \x7b\x7bdiagram:flowchart:" ++ x ++ ['\x7d'])
          ++ ['\x7d'] := by
      simp [refOnlyMain, List.append_assoc]
      all_goals decide
    rw [hL, List.getLast?_concat] at hc
    injection hc with hc
    subst hc
    rfl

theorem refOnly_main (x : Str) (hx : GoodId x) :
    extractMainDiagramContent (refOnlySource x) = refOnlyMain x := by
  have hsplit : refOnlySource x
      = (str "flowchart TD\n  A --> \x7b\x7bdiagram:flowchart:"
          ++ (x ++ str "\x7d\x7d\n")) ++ [] := by
    simp [refOnlySource, List.append_assoc]
  have hno : NoOccP (str "---diagram:")
      (str "flowchart TD\n  A --> \x7b\x7bdiagram:flowchart:" ++ (x ++ str "\x7d\x7d\n")) [] := by
    refine NoOccP_append ?_ (NoOccP_append ?_ ?_)
    · exact NoOccP_of_allSuffixClash (by decide) _
    · exact NoOccP_of_run ⟨str "--diagram:", rfl⟩
        (fun c hc => IsIdChar_ne (hx.2 c hc) (by decide)) _
    · exact NoOccP_of_allSuffixClash (by decide) _
  have hstrip : stripDefs (refOnlySource x) = refOnlySource x := by
    conv in stripDefs _ => rw [hsplit]
    rw [stripDefs_skip'' hno, stripDefs_nil, List.append_nil]
    exact (hsplit.trans (List.append_nil _)).symm
  unfold extractMainDiagramContent
  rw [hstrip]
  have hsplit2 : refOnlySource x = refOnlyMain x ++ ['\n'] := by
    simp [refOnlySource, refOnlyMain, List.append_assoc]
    all_goals decide
  rw [hsplit2, jsTrim_append_ws_right ?_, refOnlyMain_trim x hx]
  intro c hc
  simp only [List.mem_singleton] at hc
  subst hc
  rfl

theorem refOnly_detect (x : Str) (hx : GoodId x) :
    detectDiagramType (refOnlyMain x) = some (str "flowchart") := by
  have h1 : lowerStr (refOnlyMain x)
      = str "flowchart td\n  a --> \x7b\x7bdiagram:flowchart:"
        ++ (lowerStr x ++ str "\x7d\x7d") := by
    simp only [refOnlyMain, lowerStr, List.map_append, List.append_assoc]
    rw [show List.map jsToLower (str "flowchart TD\n  A --> \x7b\x7bdiagram:flowchart:")
        = str "flowchart td\n  a --> \x7b\x7bdiagram:flowchart:" from by decide,
      show List.map jsToLower (str "\x7d\x7d") = str "\x7d\x7d" from by decide]
  have h4 : lowerStr (refOnlyMain x)
      = str "flowchart"
        ++ (str " td\n  a --> \x7b\x7bdiagram:flowchart:" ++ (lowerStr x ++ str "\x7d\x7d")) := by
    rw [h1, show str "flowchart td\n  a --> \x7b\x7bdiagram:flowchart:"
        = str "flowchart" ++ str " td\n  a --> \x7b\x7bdiagram:flowchart:" from by decide]
    simp [List.append_assoc]
  have hstart : startsWithStr (str "flowchart") (lowerStr (jsTrim (refOnlyMain x)))
      = true := by
    rw [refOnlyMain_trim x hx, h4]
    unfold startsWithStr
    rw [stripLit_self_append]
    rfl
  simp only [detectDiagramType]
  rw [if_pos (Or.inl hstart)]

theorem refOnly_refScan (x : Str) (hx : GoodId x) :
    refScan (refOnlyMain x)
      = ([(str "flowchart TD\n  A --> ", str "flowchart", x)], []) := by
  have hm : matchRef (str "\x7b\x7bdiagram:"
        ++ (str "flowchart" ++ ':' :: (x ++ ('\x7d' :: '\x7d' :: []))))
      = some (str "flowchart", x, []) :=
    matchRef_hit (by decide) (by decide) hx
  have hsplit : refOnlyMain x = str "flowchart TD\n  A --> "
      ++ (str "\x7b\x7bdiagram:" ++ (str "flowchart" ++ ':' :: (x ++ ('\x7d' :: '\x7d' :: [])))) := by
    simp only [refOnlyMain]
    rw [show str "flowchart TD\n  A --> \x7b\x7bdiagram:flowchart:"
        = str "flowchart TD\n  A --> " ++ (str "\x7b\x7bdiagram:" ++ (str "flowchart" ++ [':']))
        from by decide]
    simp [List.append_assoc]
    all_goals decide
  have hno : NoOccP (str "\x7b\x7bdiagram:") (str "flowchart TD\n  A --> ")
      (str "\x7b\x7bdiagram:" ++ (str "flowchart" ++ ':' :: (x ++ ('\x7d' :: '\x7d' :: [])))) :=
    NoOccP_of_allSuffixClash (by decide) _
  rw [hsplit, refScan_skip'' hno, refScan_match hm, refScan_nil]
  rfl

theorem refOnly_processNR (x : Str) (hx : GoodId x) :
    processNestedReferences [] 12 (refOnlyMain x) [] 0 []
      = (Except.error (JsThrown.jsError
          (str "Referenced diagram not found: " ++ x)), []) := by
  rw [show (12:Nat) = 11+1 from rfl, processNR_succ]
  rw [refOnly_refScan x hx]
  rfl

/-- C5 (amended): on the P3 template itself — a root whose only reference
points at an id `x` with no definition anywhere — the pass does fail with
an error whose message names the missing id, whatever the processor state. -/
theorem missing_reference_failure_names_id (st : ProcState) (x : Str) (hx : GoodId x) :
    ((parseNestedSyntax st (refOnlySource x)).1.success = false)
    ∧ (resultErrMsg (parseNestedSyntax st (refOnlySource x)).1
        = str "Referenced diagram not found: " ++ x) := by
  simp only [parseNestedSyntax]
  rw [refOnly_registry x hx, refOnly_main x hx, refOnly_detect x hx,
    refOnly_processNR x hx]
  exact ⟨rfl, rfl⟩

/-- Witness for C5 (amended) at the concrete id `x`. -/
theorem missing_reference_failure_names_id_witness :
    GoodId (str "x")
    ∧ ((parseNestedSyntax emptyState (refOnlySource (str "x"))).1.success = false
       ∧ resultErrMsg (parseNestedSyntax emptyState (refOnlySource (str "x"))).1
           = str "Referenced diagram not found: " ++ str "x") :=
  ⟨by decide, missing_reference_failure_names_id emptyState (str "x") (by decide)⟩

set_option maxRecDepth 8000 in
/-- C5 (counterexample to the universal claim): a source whose root
content does contain a reference to the undefined id `zzz`, but whose
first reference reaches a definition cycle; the pass fails with the cycle
message, which nowhere mentions `zzz`. -/
theorem cycle_error_masks_missing_reference :
    (containsSub (str "\x7b\x7bdiagram:flowchart:zzz\x7d\x7d")
        (extractMainDiagramContent cycleShadowsMissingSource) = true)
    ∧ (mapGet (extractDiagramDefinitions cycleShadowsMissingSource) (str "zzz") = none)
    ∧ ((parseNestedSyntax emptyState cycleShadowsMissingSource).1.success = false)
    ∧ (resultErrMsg (parseNestedSyntax emptyState cycleShadowsMissingSource).1
        = str "Circular reference detected: a -> b -> a")
    ∧ (containsSub (str "zzz")
        (resultErrMsg (parseNestedSyntax emptyState cycleShadowsMissingSource).1)
        = false) := by
  refine ⟨by decide, by decide, by decide, by decide, by decide⟩

/-! ## Claim C3 -/

theorem NoOccP_refOnlySource_dashes (a : Str) (ha : GoodId a) (tail : Str) :
    NoOccP (str "---diagram:") (refOnlySource a) tail := by
  have h1 : refOnlySource a
      = str "flowchart TD\n  A --> \x7b\x7bdiagram:flowchart:" ++ (a ++ str "\x7d\x7d\n") := by
    simp [refOnlySource, List.append_assoc]
  rw [h1]
  refine NoOccP_append ?_ (NoOccP_append ?_ ?_)
  · exact NoOccP_of_allSuffixClash (by decide) _
  · exact NoOccP_of_run ⟨str "--diagram:", rfl⟩
      (fun c hc => IsIdChar_ne (ha.2 c hc) (by decide)) _
  · exact NoOccP_of_allSuffixClash (by decide) _

theorem NoOccP_refOnlyMain_end (j : Str) (hj : GoodId j) (tail : Str) :
    NoOccP (str "---end---") (refOnlyMain j) tail := by
  have h1 : refOnlyMain j
      = str "flowchart TD\n  A --> \x7b\x7bdiagram:flowchart:" ++ (j ++ str "\x7d\x7d") := by
    simp [refOnlyMain, List.append_assoc]
    all_goals decide
  rw [h1]
  refine NoOccP_append ?_ (NoOccP_append ?_ ?_)
  · exact NoOccP_of_allSuffixClash (by decide) _
  · exact NoOccP_of_run ⟨str "--end---", rfl⟩
      (fun c hc => IsIdChar_ne (hj.2 c hc) (by decide)) _
  · exact NoOccP_of_allSuffixClash (by decide) _

theorem NoOccP_block_body (j : Str) (hj : GoodId j) (tail : Str) :
    NoOccP (str "---end---") ('\n' :: (refOnlyMain j ++ ['\n'])) tail := by
  refine ⟨stripLit_head_ne (by decide), ?_⟩
  refine NoOccP_append (NoOccP_refOnlyMain_end j hj _) ?_
  exact NoOccP_of_allSuffixClash (by decide) _

theorem bodyBlock_trim (j : Str) (hj : GoodId j) :
    jsTrim ('\n' :: (refOnlyMain j ++ ['\n'])) = refOnlyMain j := by
  rw [jsTrim_cons_ws (by decide)]
  rw [jsTrim_append_ws_right ?_, refOnlyMain_trim j hj]
  intro c hc
  simp only [List.mem_singleton] at hc
  subst hc
  rfl

theorem refOnlyMain_ne_nil (j : Str) : refOnlyMain j ≠ [] := by
  intro h
  have h2 := congrArg List.head? h
  rw [show (refOnlyMain j).head? = some 'f' from rfl] at h2
  simp at h2

theorem matchDef_block (i j rest : Str) (hi : GoodId i) (hj : GoodId j) :
    matchDef (defBlockRef i j ++ rest)
      = some (str "flowchart", i, '\n' :: (refOnlyMain j ++ ['\n']), rest) := by
  have hsplit : defBlockRef i j ++ rest
      = str "---diagram:" ++ (str "flowchart" ++ ':' :: (i ++ (str "---"
          ++ (('\n' :: (refOnlyMain j ++ ['\n'])) ++ (str "---end---" ++ rest))))) := by
    show (str "---diagram:flowchart:" ++ i ++ str "---\n" ++ refOnlyMain j
        ++ str "\n---end---") ++ rest = _
    rw [show str "---diagram:flowchart:"
        = str "---diagram:" ++ (str "flowchart" ++ [':']) from by decide,
      show str "---\n" = str "---" ++ ['\n'] from by decide,
      show str "\n---end---" = ['\n'] ++ str "---end---" from by decide]
    simp [List.append_assoc]
  rw [hsplit]
  exact matchDef_hit (by decide) (by decide) hi rfl (by decide)
    (NoOccP_block_body j hj (str "---end---" ++ rest))

theorem srcReach_defScan (a b : Str) (ha : GoodId a) (hb : GoodId b) :
    defScan (srcReach a b)
      = [(str "flowchart", a, '\n' :: (refOnlyMain b ++ ['\n'])),
         (str "flowchart", b, '\n' :: (refOnlyMain a ++ ['\n']))] := by
  have hno1 : NoOccP (str "---diagram:") (refOnlySource a ++ str "\n")
      (defBlockRef a b ++ (str "\n\n" ++ (defBlockRef b a ++ str "\n"))) := by
    refine NoOccP_append (NoOccP_refOnlySource_dashes a ha _) ?_
    exact NoOccP_of_allSuffixClash (by decide) _
  have h1 : defScan (srcReach a b)
      = defScan (defBlockRef a b ++ (str "\n\n" ++ (defBlockRef b a ++ str "\n"))) :=
    defScan_skip'' hno1
  have h2 : defScan (defBlockRef a b ++ (str "\n\n" ++ (defBlockRef b a ++ str "\n")))
      = (str "flowchart", a, '\n' :: (refOnlyMain b ++ ['\n']))
        :: defScan (str "\n\n" ++ (defBlockRef b a ++ str "\n")) :=
    defScan_match (matchDef_block a b _ ha hb)
  have hno2 : NoOccP (str "---diagram:") (str "\n\n") (defBlockRef b a ++ str "\n") :=
    NoOccP_of_allSuffixClash (by decide) _
  have h3 : defScan (str "\n\n" ++ (defBlockRef b a ++ str "\n"))
      = defScan (defBlockRef b a ++ str "\n") := defScan_skip'' hno2
  have h4 : defScan (defBlockRef b a ++ str "\n")
      = (str "flowchart", b, '\n' :: (refOnlyMain a ++ ['\n'])) :: defScan (str "\n") :=
    defScan_match (matchDef_block b a _ hb ha)
  have h5 : defScan (str "\n") = [] := by decide
  rw [h1, h2, h3, h4, h5]

theorem extractDefStep_hit (reg : RegistryT) (t i body : Str)
    (hv : isValidDiagramType t = true) (hi : i ≠ []) (hb : jsTrim body ≠ []) :
    extractDefStep reg (t, i, body) = mapSet reg i (jsTrim body) := by
  unfold extractDefStep
  rw [if_pos ⟨hv, hi, hb⟩]

theorem srcReach_registry (a b : Str) (ha : GoodId a) (hb : GoodId b) (hab : a ≠ b) :
    extractDiagramDefinitions (srcReach a b) = regR a b := by
  have hba : b ≠ a := fun e => hab e.symm
  unfold extractDiagramDefinitions
  rw [srcReach_defScan a b ha hb]
  rw [List.foldl_cons, List.foldl_cons, List.foldl_nil,
    extractDefStep_hit [] (str "flowchart") a ('\n' :: (refOnlyMain b ++ ['\n']))
      (by decide) ha.1 (by rw [bodyBlock_trim b hb]; exact refOnlyMain_ne_nil b),
    bodyBlock_trim b hb,
    extractDefStep_hit (mapSet [] a (refOnlyMain b)) (str "flowchart") b
      ('\n' :: (refOnlyMain a ++ ['\n']))
      (by decide) hb.1 (by rw [bodyBlock_trim a ha]; exact refOnlyMain_ne_nil a),
    bodyBlock_trim a ha]
  show mapSet [(a, refOnlyMain b)] b (refOnlyMain a) = regR a b
  unfold mapSet
  rw [if_neg hba]
  rfl

theorem srcReach_main (a b : Str) (ha : GoodId a) (hb : GoodId b) :
    extractMainDiagramContent (srcReach a b) = refOnlyMain a := by
  have hno1 : NoOccP (str "---diagram:") (refOnlySource a ++ str "\n")
      (defBlockRef a b ++ (str "\n\n" ++ (defBlockRef b a ++ str "\n"))) := by
    refine NoOccP_append (NoOccP_refOnlySource_dashes a ha _) ?_
    exact NoOccP_of_allSuffixClash (by decide) _
  have hno2 : NoOccP (str "---diagram:") (str "\n\n") (defBlockRef b a ++ str "\n") :=
    NoOccP_of_allSuffixClash (by decide) _
  have h1 : stripDefs (srcReach a b)
      = (refOnlySource a ++ str "\n")
        ++ stripDefs (defBlockRef a b ++ (str "\n\n" ++ (defBlockRef b a ++ str "\n"))) :=
    stripDefs_skip'' hno1
  have h2 : stripDefs (defBlockRef a b ++ (str "\n\n" ++ (defBlockRef b a ++ str "\n")))
      = stripDefs (str "\n\n" ++ (defBlockRef b a ++ str "\n")) :=
    stripDefs_match (matchDef_block a b _ ha hb)
  have h3 : stripDefs (str "\n\n" ++ (defBlockRef b a ++ str "\n"))
      = str "\n\n" ++ stripDefs (defBlockRef b a ++ str "\n") :=
    stripDefs_skip'' hno2
  have h4 : stripDefs (defBlockRef b a ++ str "\n") = stripDefs (str "\n") :=
    stripDefs_match (matchDef_block b a _ hb ha)
  have h5 : stripDefs (str "\n") = str "\n" := by decide
  have hsp0 : refOnlySource a = refOnlyMain a ++ ['\n'] := by
    simp [refOnlySource, refOnlyMain, List.append_assoc]
    all_goals decide
  unfold extractMainDiagramContent
  rw [h1, h2, h3, h4, h5]
  have hsplit : (refOnlySource a ++ str "\n") ++ (str "\n\n" ++ str "\n")
      = refOnlyMain a ++ (['\n'] ++ (str "\n" ++ (str "\n\n" ++ str "\n"))) := by
    rw [hsp0]
    simp [List.append_assoc]
  rw [hsplit, jsTrim_append_ws_right ?_, refOnlyMain_trim a ha]
  intro c hc
  rw [show ['\n'] ++ (str "\n" ++ (str "\n\n" ++ str "\n"))
      = ['\n', '\n', '\n', '\n', '\n'] from by decide] at hc
  simp at hc
  subst hc
  rfl

theorem mapGet_regR_self (a b : Str) : mapGet (regR a b) a = some (refOnlyMain b) := by
  simp [regR, mapGet]

theorem mapGet_regR_other (a b : Str) (hba : b ≠ a) :
    mapGet (regR a b) b = some (refOnlyMain a) := by
  simp [regR, mapGet, hba]

theorem processNR_level2 (a b : Str) (ha : GoodId a) :
    processNestedReferences (regR a b) 10 (refOnlyMain a) [a, b] 2 []
      = (Except.error (JsThrown.jsDiagramError
          { type := ErrType.nestedError,
            message := str "Circular reference detected: "
              ++ joinArrow ([a, b] ++ [a]) }), []) := by
  have hvalid : isValidDiagramType (str "flowchart") = true := by decide
  have hinc : jsIncludes [a, b] a = true := by simp [jsIncludes]
  rw [show (10:Nat) = 9+1 from rfl, processNR_succ,
    if_neg (show ¬ (MAX_NESTING_DEPTH < 2) from by decide),
    refOnly_refScan a ha,
    if_neg (show ¬ (WARNING_NESTING_DEPTH ≤ 2 ∧ ([a, b] : List Str) ≠ []) from
      fun h => absurd h.1 (by decide))]
  simp [hvalid, hinc, mapGet_regR_self]

theorem processNR_level1 (a b : Str) (ha : GoodId a) (hb : GoodId b) (hab : a ≠ b) :
    processNestedReferences (regR a b) 11 (refOnlyMain b) [a] 1 []
      = (Except.error (JsThrown.jsDiagramError
          { type := ErrType.nestedError,
            message := str "Circular reference detected: "
              ++ joinArrow ([a, b] ++ [a]) }), []) := by
  have hba : b ≠ a := fun e => hab e.symm
  have hvalid : isValidDiagramType (str "flowchart") = true := by decide
  have hinc : jsIncludes [a] b = false := by simp [jsIncludes, hba]
  rw [show (11:Nat) = 10+1 from rfl, processNR_succ,
    if_neg (show ¬ (MAX_NESTING_DEPTH < 1) from by decide),
    refOnly_refScan b hb,
    if_neg (show ¬ (WARNING_NESTING_DEPTH ≤ 1 ∧ ([a] : List Str) ≠ []) from
      fun h => absurd h.1 (by decide))]
  simp only [List.map_cons, List.map_nil, List.foldl_cons, List.foldl_nil]
  simp [hvalid, hinc, mapGet_regR_other a b hba]
  rw [processNR_level2 a b ha]
  simp

theorem processNR_level0 (a b : Str) (ha : GoodId a) (hb : GoodId b) (hab : a ≠ b) :
    processNestedReferences (regR a b) 12 (refOnlyMain a) [] 0 []
      = (Except.error (JsThrown.jsDiagramError
          { type := ErrType.nestedError,
            message := str "Circular reference detected: "
              ++ joinArrow ([a, b] ++ [a]) }), []) := by
  have hvalid : isValidDiagramType (str "flowchart") = true := by decide
  have hinc : jsIncludes ([] : List Str) a = false := rfl
  rw [show (12:Nat) = 11+1 from rfl, processNR_succ,
    if_neg (show ¬ (MAX_NESTING_DEPTH < 0) from by decide),
    refOnly_refScan a ha,
    if_neg (show ¬ (WARNING_NESTING_DEPTH ≤ 0 ∧ ([] : List Str) ≠ []) from
      fun h => absurd h.1 (by decide))]
  simp only [List.map_cons, List.map_nil, List.foldl_cons, List.foldl_nil]
  simp [hvalid, hinc, mapGet_regR_self]
  rw [processNR_level1 a b ha hb hab]
  simp

theorem joinArrow3 (a b c : Str) :
    joinArrow ([a, b] ++ [c]) = a ++ (str " -> " ++ (b ++ (str " -> " ++ c))) := by
  simp [joinArrow, List.intercalate, List.intersperse, List.append_assoc]

set_option maxRecDepth 8000 in
/-- C3: for every pair of well-formed distinct ids `a`, `b` whose
definitions mutually embed each other with the root reaching `a`, the
pass fails with the exact message `Circular reference detected: a -> b ->
a`, whatever the processor state; and on a concrete source whose root
never references the cyclic pair, the whole-graph DFS still fails the
pass with the same full cycle path in the message. -/
theorem mutual_embedding_cycle_detected :
    (∀ (st : ProcState) (a b : Str), GoodId a → GoodId b → a ≠ b →
      ((parseNestedSyntax st (srcReach a b)).1.success = false)
      ∧ (resultErrMsg (parseNestedSyntax st (srcReach a b)).1
          = str "Circular reference detected: "
            ++ (a ++ (str " -> " ++ (b ++ (str " -> " ++ a))))))
    ∧ (((parseNestedSyntax emptyState srcUnreachC).1.success = false)
       ∧ (resultErrMsg (parseNestedSyntax emptyState srcUnreachC).1
           = str "Circular reference detected: a -> b -> a")
       ∧ (containsSub (str "\x7b\x7b") (extractMainDiagramContent srcUnreachC)
           = false)) := by
  refine ⟨?_, by decide, by decide, by decide⟩
  intro st a b ha hb hab
  have hreg := srcReach_registry a b ha hb hab
  have hmain := srcReach_main a b ha hb
  have hdet := refOnly_detect a ha
  have h0 := processNR_level0 a b ha hb hab
  simp only [parseNestedSyntax]
  rw [hreg, hmain, hdet, h0]
  refine ⟨rfl, ?_⟩
  show str "Circular reference detected: " ++ joinArrow ([a, b] ++ [a]) = _
  rw [joinArrow3]

set_option maxRecDepth 8000 in
/-- Witness for C3 at the concrete ids `a`, `b`. -/
theorem mutual_embedding_cycle_detected_witness :
    (GoodId (str "a") ∧ GoodId (str "b") ∧ str "a" ≠ str "b")
    ∧ (((parseNestedSyntax emptyState (srcReach (str "a") (str "b"))).1.success
          = false)
       ∧ (resultErrMsg
            (parseNestedSyntax emptyState (srcReach (str "a") (str "b"))).1
           = str "Circular reference detected: "
             ++ (str "a" ++ (str " -> " ++ (str "b" ++ (str " -> " ++ str "a")))))) :=
  ⟨⟨by decide, by decide, by decide⟩,
    mutual_embedding_cycle_detected.1 emptyState (str "a") (str "b")
      (by decide) (by decide) (by decide)⟩

/-! ## Claim C4 -/

theorem chainId_good (i : Nat) (hi : 1 ≤ i) : GoodId (chainId i) := by
  constructor
  · simp [chainId]
    omega
  · intro c hc
    simp [chainId] at hc
    rw [hc.2]
    exact Or.inl ⟨by decide, by decide⟩

theorem chainId_inj {i j : Nat} (h : chainId i = chainId j) : i = j := by
  have h2 := congrArg List.length h
  simpa [chainId] using h2

theorem matchDef_blockPlain (i rest : Str) (hi : GoodId i) :
    matchDef (defBlockPlain i ++ rest)
      = some (str "flowchart", i, '\n' :: (plainMain ++ ['\n']), rest) := by
  have hsplit : defBlockPlain i ++ rest
      = str "---diagram:" ++ (str "flowchart" ++ ':' :: (i ++ (str "---"
          ++ (('\n' :: (plainMain ++ ['\n'])) ++ (str "---end---" ++ rest))))) := by
    show (str "---diagram:flowchart:" ++ i ++ str "---\n" ++ plainMain
        ++ str "\n---end---") ++ rest = _
    rw [show str "---diagram:flowchart:"
        = str "---diagram:" ++ (str "flowchart" ++ [':']) from by decide,
      show str "---\n" = str "---" ++ ['\n'] from by decide,
      show str "\n---end---" = ['\n'] ++ str "---end---" from by decide]
    simp [List.append_assoc, plainMain]
  rw [hsplit]
  exact matchDef_hit (by decide) (by decide) hi rfl (by decide)
    (NoOccP_of_allSuffixClash (by decide) _)

theorem chainBlocks_defScan : ∀ (k i : Nat), 1 ≤ i →
    defScan (chainBlocksAux k i) = scanCAux k i := by
  intro k
  induction k with
  | zero =>
    intro i hi
    show defScan (defBlockPlain (chainId i) ++ str "\n") = _
    rw [defScan_match (matchDef_blockPlain (chainId i) _ (chainId_good i hi))]
    rw [show defScan (str "\n") = [] from by decide]
    rfl
  | succ k ih =>
    intro i hi
    show defScan (defBlockRef (chainId i) (chainId (i+1))
      ++ (str "\n\n" ++ chainBlocksAux k (i+1))) = _
    rw [defScan_match (matchDef_block (chainId i) (chainId (i+1)) _
      (chainId_good i hi) (chainId_good (i+1) (by omega)))]
    rw [defScan_skip'' (NoOccP_of_allSuffixClash (by decide) _)]
    rw [ih (i+1) (by omega)]
    rfl

theorem chainSource_defScan (n : Nat) (hn : 1 ≤ n) :
    defScan (chainSource n) = scanCAux (n-1) 1 := by
  have hno1 : NoOccP (str "---diagram:") (refOnlySource (chainId 1) ++ str "\n")
      (chainBlocksAux (n-1) 1) := by
    refine NoOccP_append (NoOccP_refOnlySource_dashes (chainId 1)
      (chainId_good 1 (by omega)) _) ?_
    exact NoOccP_of_allSuffixClash (by decide) _
  have h1 : defScan (chainSource n) = defScan (chainBlocksAux (n-1) 1) :=
    defScan_skip'' hno1
  rw [h1, chainBlocks_defScan (n-1) 1 (by omega)]

theorem chainFold : ∀ (k i : Nat), 1 ≤ i →
    ∀ acc : RegistryT, (∀ j, i ≤ j → chainId j ∉ mapKeys acc) →
      List.foldl extractDefStep acc (scanCAux k i) = acc ++ regCAux k i := by
  intro k
  induction k with
  | zero =>
    intro i hi acc hfresh
    show extractDefStep acc (str "flowchart", chainId i, '\n' :: (plainMain ++ ['\n']))
      = acc ++ regCAux 0 i
    rw [extractDefStep_hit acc _ _ _ (by decide) (chainId_good i hi).1 (by decide),
      show jsTrim ('\n' :: (plainMain ++ ['\n'])) = plainMain from by decide,
      mapSet_fresh (hfresh i le_rfl) plainMain]
    rfl
  | succ k ih =>
    intro i hi acc hfresh
    show List.foldl extractDefStep
      (extractDefStep acc
        (str "flowchart", chainId i, '\n' :: (refOnlyMain (chainId (i+1)) ++ ['\n'])))
      (scanCAux k (i+1)) = acc ++ regCAux (k+1) i
    rw [extractDefStep_hit acc _ _ _ (by decide) (chainId_good i hi).1
        (by rw [bodyBlock_trim (chainId (i+1)) (chainId_good (i+1) (by omega))]
            exact refOnlyMain_ne_nil _),
      bodyBlock_trim (chainId (i+1)) (chainId_good (i+1) (by omega)),
      mapSet_fresh (hfresh i le_rfl) _]
    rw [ih (i+1) (by omega) (acc ++ [(chainId i, refOnlyMain (chainId (i+1)))]) ?_]
    · simp [regCAux]
    · intro j hj hmem
      rw [mapKeys_append] at hmem
      rcases List.mem_append.mp hmem with hmem | hmem
      · exact hfresh j (by omega) hmem
      · simp [mapKeys] at hmem
        exact absurd (chainId_inj hmem) (by omega)

theorem chainSource_registry (n : Nat) (hn : 1 ≤ n) :
    extractDiagramDefinitions (chainSource n) = regC n := by
  unfold extractDiagramDefinitions
  rw [chainSource_defScan n hn]
  have h := chainFold (n-1) 1 (by omega) []
    (by intro j _ hj; simp [mapKeys] at hj)
  simpa [regC] using h

theorem chainBlocks_strip_ws : ∀ (k i : Nat), 1 ≤ i →
    ∀ c ∈ stripDefs (chainBlocksAux k i), isWs c = true := by
  intro k
  induction k with
  | zero =>
    intro i hi c hc
    rw [show stripDefs (chainBlocksAux 0 i) = stripDefs (str "\n") from
        stripDefs_match (matchDef_blockPlain (chainId i) _ (chainId_good i hi)),
      show stripDefs (str "\n") = str "\n" from by decide] at hc
    rw [show str "\n" = ['\n'] from by decide] at hc
    simp at hc
    subst hc
    rfl
  | succ k ih =>
    intro i hi c hc
    rw [show stripDefs (chainBlocksAux (k+1) i)
        = stripDefs (str "\n\n" ++ chainBlocksAux k (i+1)) from
        stripDefs_match (matchDef_block (chainId i) (chainId (i+1)) _
          (chainId_good i hi) (chainId_good (i+1) (by omega))),
      stripDefs_skip'' (NoOccP_of_allSuffixClash (by decide) _)] at hc
    rcases List.mem_append.mp hc with hc | hc
    · rw [show str "\n\n" = ['\n', '\n'] from by decide] at hc
      simp at hc
      subst hc
      rfl
    · exact ih (i+1) (by omega) c hc

theorem chainSource_main (n : Nat) (hn : 1 ≤ n) :
    extractMainDiagramContent (chainSource n) = refOnlyMain (chainId 1) := by
  have hno1 : NoOccP (str "---diagram:") (refOnlySource (chainId 1) ++ str "\n")
      (chainBlocksAux (n-1) 1) := by
    refine NoOccP_append (NoOccP_refOnlySource_dashes (chainId 1)
      (chainId_good 1 (by omega)) _) ?_
    exact NoOccP_of_allSuffixClash (by decide) _
  have h1 : stripDefs (chainSource n)
      = (refOnlySource (chainId 1) ++ str "\n") ++ stripDefs (chainBlocksAux (n-1) 1) :=
    stripDefs_skip'' hno1
  unfold extractMainDiagramContent
  rw [h1]
  have hsp0 : refOnlySource (chainId 1) = refOnlyMain (chainId 1) ++ ['\n'] := by
    simp [refOnlySource, refOnlyMain, List.append_assoc]
    all_goals decide
  have hsplit : (refOnlySource (chainId 1) ++ str "\n")
        ++ stripDefs (chainBlocksAux (n-1) 1)
      = refOnlyMain (chainId 1)
        ++ (['\n'] ++ (str "\n" ++ stripDefs (chainBlocksAux (n-1) 1))) := by
    rw [hsp0]
    simp [List.append_assoc]
  rw [hsplit, jsTrim_append_ws_right ?_,
    refOnlyMain_trim (chainId 1) (chainId_good 1 (by omega))]
  intro c hc
  rcases List.mem_append.mp hc with hc | hc
  · simp at hc
    subst hc
    rfl
  · rcases List.mem_append.mp hc with hc | hc
    · rw [show str "\n" = ['\n'] from by decide] at hc
      simp at hc
      subst hc
      rfl
    · exact chainBlocks_strip_ws (n-1) 1 (by omega) c hc

theorem chainPath_ne_nil (d : Nat) (hd : 1 ≤ d) : chainPath d ≠ [] := by
  cases d with
  | zero => omega
  | succ m => simp [chainPath]

theorem chainPath_getLast (d : Nat) (hd : 1 ≤ d) :
    (chainPath d).getLast?.getD [] = chainId d := by
  cases d with
  | zero => omega
  | succ m =>
    show ((chainPath m ++ [chainId (m+1)]).getLast?).getD [] = chainId (m+1)
    rw [List.getLast?_concat]
    rfl

theorem chainPath_not_mem : ∀ (d j : Nat), d < j →
    jsIncludes (chainPath d) (chainId j) = false := by
  intro d
  induction d with
  | zero => intro j _; rfl
  | succ m ih =>
    intro j hj
    show jsIncludes (chainPath m ++ [chainId (m+1)]) (chainId j) = false
    have h1 := ih j (by omega)
    have h2 : chainId (m+1) ≠ chainId j := fun e => absurd (chainId_inj e) (by omega)
    simp [jsIncludes] at h1 ⊢
    exact ⟨h1, fun e => h2 e.symm⟩

theorem mapGet_regCAux : ∀ (k i j : Nat), 1 ≤ i → i ≤ j → j ≤ i + k →
    mapGet (regCAux k i) (chainId j)
      = some (if j < i + k then refOnlyMain (chainId (j+1)) else plainMain) := by
  intro k
  induction k with
  | zero =>
    intro i j _ hij hjk
    have he : j = i := by omega
    subst he
    show mapGet [(chainId j, plainMain)] (chainId j) = _
    rw [mapGet_cons, if_pos rfl, if_neg (by omega)]
  | succ k ih =>
    intro i j hi hij hjk
    show mapGet ((chainId i, refOnlyMain (chainId (i+1))) :: regCAux k (i+1))
      (chainId j) = _
    rw [mapGet_cons]
    by_cases he : j = i
    · subst he
      rw [if_pos rfl, if_pos (by omega)]
    · rw [if_neg (fun e => he (chainId_inj e)),
        ih (i+1) j (by omega) (by omega) (by omega)]
      rw [show i + 1 + k = i + (k + 1) from by omega]

theorem mapGet_regC_lt (n j : Nat) (h1 : 1 ≤ j) (h2 : j < n) :
    mapGet (regC n) (chainId j) = some (refOnlyMain (chainId (j+1))) := by
  unfold regC
  rw [mapGet_regCAux (n-1) 1 j (by omega) (by omega) (by omega),
    if_pos (by omega)]

theorem wFrom_cons (d : Nat) (h7 : 7 ≤ d) (hd : d ≤ 10) :
    wFrom d = chainWarning d :: wFrom (d+1) := by
  unfold wFrom
  rw [show 11 - d = (11 - (d+1)) + 1 from by omega, List.range'_succ]
  rw [List.filter_cons]
  simp [h7]

theorem wFrom_skip (d : Nat) (h7 : d < 7) : wFrom d = wFrom (d+1) := by
  unfold wFrom
  rw [show 11 - d = (11 - (d+1)) + 1 from by omega, List.range'_succ]
  rw [List.filter_cons]
  simp [Nat.not_le.mpr h7]

theorem mapGet_regC_last (n : Nat) (hn : 1 ≤ n) :
    mapGet (regC n) (chainId n) = some plainMain := by
  unfold regC
  rw [mapGet_regCAux (n-1) 1 n (by omega) (by omega) (by omega), if_neg (by omega)]

theorem chainNR11 (reg : RegistryT) (fuel : Nat) (content : Str)
    (parents : List Str) (ws : List NestingWarning) (h : 1 ≤ fuel) :
    processNestedReferences reg fuel content parents 11 ws
      = (Except.error (JsThrown.jsError (str "Maximum nesting depth (10) exceeded")),
         ws) := by
  obtain ⟨f, rfl⟩ : ∃ f, fuel = f + 1 := ⟨fuel - 1, by omega⟩
  rw [processNR_succ, if_pos (by decide : MAX_NESTING_DEPTH < 11)]

theorem chainWarning_eq (d : Nat) (hd : 1 ≤ d) :
    ({ diagramId := (chainPath d).getLast?.getD [], currentDepth := d,
       maxDepth := MAX_NESTING_DEPTH, path := chainPath d } : NestingWarning)
      = chainWarning d := by
  rw [chainPath_getLast d hd]
  rfl

theorem chainNR_gen : ∀ (k d : Nat), k + d = 11 → d ≤ 10 → ∀ (n : Nat), 11 ≤ n →
    ∀ ws, processNestedReferences (regC n) (k+1) (refOnlyMain (chainId (d+1)))
      (chainPath d) d ws
    = (Except.error (JsThrown.jsError (str "Maximum nesting depth (10) exceeded")),
       ws ++ wFrom d) := by
  intro k
  induction k with
  | zero =>
    intro d hkd hd10
    omega
  | succ k ih =>
    intro d hkd hd10 n hn ws
    have hvalid : isValidDiagramType (str "flowchart") = true := by decide
    rw [processNR_succ, if_neg (show ¬ (MAX_NESTING_DEPTH < d) from by
      unfold MAX_NESTING_DEPTH
      omega)]
    by_cases h7 : 7 ≤ d
    · rw [if_pos ⟨h7, chainPath_ne_nil d (by omega)⟩,
        chainWarning_eq d (by omega)]
      rw [refOnly_refScan (chainId (d+1)) (chainId_good (d+1) (by omega))]
      simp only [List.map_cons, List.map_nil, List.foldl_cons, List.foldl_nil]
      by_cases hdl : d = 10
      · subst hdl
        obtain ⟨c, hc⟩ : ∃ c, mapGet (regC n) (chainId 11) = some c := by
          by_cases h11 : 11 < n
          · exact ⟨_, mapGet_regC_lt n 11 (by omega) h11⟩
          · have he : n = 11 := by omega
            subst he
            exact ⟨_, mapGet_regC_last 11 (by omega)⟩
        simp [hvalid, chainPath_not_mem 10 11 (by omega), hc]
        rw [chainNR11 (regC n) (k+1) c _ _ (by omega)]
        rw [show wFrom 10 = [chainWarning 10] from by
          rw [wFrom_cons 10 (by omega) (by omega)]
          rfl]
      · simp [hvalid, chainPath_not_mem d (d+1) (by omega),
          mapGet_regC_lt n (d+1) (by omega) (by omega)]
        rw [show chainPath d ++ [chainId (d+1)] = chainPath (d+1) from rfl,
          ih (d+1) (by omega) (by omega) n hn (ws ++ [chainWarning d]),
          wFrom_cons d h7 (by omega)]
        simp
    · rw [if_neg (fun h => h7 h.1)]
      rw [refOnly_refScan (chainId (d+1)) (chainId_good (d+1) (by omega))]
      simp only [List.map_cons, List.map_nil, List.foldl_cons, List.foldl_nil]
      simp [hvalid, chainPath_not_mem d (d+1) (by omega),
        mapGet_regC_lt n (d+1) (by omega) (by omega)]
      rw [show chainPath d ++ [chainId (d+1)] = chainPath (d+1) from rfl,
        ih (d+1) (by omega) (by omega) n hn ws,
        wFrom_skip d (by omega)]

theorem chainNR_root (n : Nat) (hn : 11 ≤ n) :
    processNestedReferences (regC n) 12 (refOnlyMain (chainId 1)) [] 0 []
      = (Except.error (JsThrown.jsError (str "Maximum nesting depth (10) exceeded")),
         wFrom 0) := by
  have h := chainNR_gen 11 0 rfl (by omega) n hn []
  simpa [chainPath] using h

theorem wChain_ge11 (n : Nat) (h : 11 ≤ n) : wChain n = wFrom 0 := by
  unfold wChain wFrom
  rw [show min n 10 = 10 from by omega]
  rfl

set_option maxRecDepth 8000 in
/-- C4: resolving a linear chain of `n ≥ 1` definitions (each embedding
the next, the root embedding the first) succeeds exactly when `n ≤ 10`;
for `n ≥ 11` it fails with the fatal maximum-nesting-depth message; and
the accumulated non-fatal warnings are exactly one per level of depth
`7 .. min n 10`, each recording the diagram id at that depth, the depth,
the cap 10, and the ancestor path. -/
theorem chain_depth_cap (n : Nat) (hn : 1 ≤ n) :
    (((parseNestedSyntax emptyState (chainSource n)).1.success = true) ↔ n ≤ 10)
    ∧ (11 ≤ n → resultErrMsg (parseNestedSyntax emptyState (chainSource n)).1
        = str "Maximum nesting depth (10) exceeded")
    ∧ ((parseNestedSyntax emptyState (chainSource n)).1.warnings = wChain n) := by
  by_cases hle : n ≤ 10
  · have h1 : 1 ≤ n := hn
    interval_cases n <;> exact by decide
  · have h11 : 11 ≤ n := by omega
    have hreg := chainSource_registry n hn
    have hmain := chainSource_main n hn
    have hdet := refOnly_detect (chainId 1) (chainId_good 1 (by omega))
    have h0 := chainNR_root n h11
    simp only [parseNestedSyntax]
    rw [hreg, hmain, hdet, h0]
    refine ⟨iff_of_false (by simp) (by omega), fun _ => rfl, ?_⟩
    rw [wChain_ge11 n h11]

set_option maxRecDepth 8000 in
/-- Witness for C4 at the concrete chain length 12. -/
theorem chain_depth_cap_witness :
    1 ≤ 12
    ∧ ((((parseNestedSyntax emptyState (chainSource 12)).1.success = true) ↔ 12 ≤ 10)
       ∧ (11 ≤ 12 → resultErrMsg (parseNestedSyntax emptyState (chainSource 12)).1
           = str "Maximum nesting depth (10) exceeded")
       ∧ ((parseNestedSyntax emptyState (chainSource 12)).1.warnings = wChain 12)) :=
  ⟨by decide, chain_depth_cap 12 (by decide)⟩

/-! ## Claim C7 -/

/-- The dependency-edge relation of a graph: `a` depends directly on `b`. -/
def edgeRel (g : Graph) (a b : Str) : Prop :=
  ∃ na, mapGet g a = some na ∧ b ∈ na.dependencies

/-- The graph has a (directed) cycle. -/
def hasCycle (g : Graph) : Prop := ∃ a, Relation.TransGen (edgeRel g) a a

/-- All dependency ids mentioned by any node. -/
def allDeps (g : Graph) : List Str := (g.map (fun e => e.2.dependencies)).join

/-- The universe of ids the traversals can ever touch. -/
def idU (g : Graph) : List Str := mapKeys g ++ allDeps g

/-- A topological order is consistent: every listed diagram's
dependencies appear strictly before it. -/
def SortedOK (g : Graph) (l : List Str) : Prop :=
  ∀ p x s, l = p ++ x :: s → ∀ nx, mapGet g x = some nx →
    ∀ b ∈ nx.dependencies, b ∈ p

/-- Invariant of the topological-sort traversal state. -/
def GoodSt (g : Graph) (st : TopoState) : Prop :=
  st.sortedOrder.Nodup
  ∧ (∀ v, v ∈ st.visited ↔ v ∈ st.sortedOrder)
  ∧ (∀ v ∈ st.visited, v ∉ st.tempMark)
  ∧ (∀ v ∈ st.visited, ∀ nv, mapGet g v = some nv →
      ∀ b ∈ nv.dependencies, b ∈ st.visited)
  ∧ SortedOK g st.sortedOrder

theorem setHas_iff (l : List Str) (x : Str) : setHas l x = true ↔ x ∈ l := by
  simp [setHas]

theorem setHas_false_iff (l : List Str) (x : Str) : setHas l x = false ↔ x ∉ l := by
  rw [← Bool.not_eq_true, setHas_iff]

theorem mem_setAdd {l : List Str} {x y : Str} :
    y ∈ setAdd l x ↔ y ∈ l ∨ y = x := by
  unfold setAdd
  by_cases h : l.contains x
  · rw [if_pos h]
    constructor
    · exact Or.inl
    · rintro (hy | rfl)
      · exact hy
      · simpa using h
  · rw [if_neg h]
    simp

theorem setDelete_of_not_mem {l : List Str} {x : Str} (h : x ∉ l) :
    setDelete l x = l := by
  unfold setDelete
  apply List.filter_eq_self.mpr
  intro a ha
  simp
  exact fun e => h (e ▸ ha)

theorem setDelete_append_self {l : List Str} {x : Str} (h : x ∉ l) :
    setDelete (l ++ [x]) x = l := by
  unfold setDelete
  rw [List.filter_append, List.filter_eq_self.mpr, show List.filter (fun a => decide (a ≠ x)) [x] = [] from by simp, List.append_nil]
  intro a ha
  simp
  exact fun e => h (e ▸ ha)

theorem mapGet_mem_pair {α : Type} : ∀ {m : List (Str × α)} {k : Str} {v : α},
    mapGet m k = some v → (k, v) ∈ m := by
  intro m
  induction m with
  | nil => intro k v h; simp [mapGet] at h
  | cons e rest ih =>
    intro k v h
    obtain ⟨k2, v2⟩ := e
    rw [mapGet_cons] at h
    by_cases he : k = k2
    · rw [if_pos he] at h
      injection h with h
      subst h
      subst he
      exact List.mem_cons_self _ _
    · rw [if_neg he] at h
      exact List.mem_cons_of_mem _ (ih h)

theorem mem_allDeps {g : Graph} {a b : Str} (h : edgeRel g a b) : b ∈ allDeps g := by
  obtain ⟨na, hget, hb⟩ := h
  unfold allDeps
  rw [List.mem_join]
  exact ⟨na.dependencies, List.mem_map.mpr ⟨(a, na), mapGet_mem_pair hget, rfl⟩, hb⟩

theorem mem_idU_of_key {g : Graph} {k : Str} (h : k ∈ mapKeys g) : k ∈ idU g := by
  unfold idU
  exact List.mem_append.mpr (Or.inl h)

theorem mem_idU_of_edge {g : Graph} {a b : Str} (h : edgeRel g a b) : b ∈ idU g := by
  unfold idU
  exact List.mem_append.mpr (Or.inr (mem_allDeps h))

theorem nodup_subset_length {l u : List Str} (hn : l.Nodup) (hs : l ⊆ u) :
    l.length ≤ u.length :=
  (List.subperm_of_subset hn hs).length_le

theorem SortedOK_nil (g : Graph) : SortedOK g [] := by
  intro p x s h
  cases p <;> simp at h

theorem concat_eq_append_cons {l p s : List Str} {x y : Str}
    (h : l ++ [x] = p ++ y :: s) :
    (s = [] ∧ p = l ∧ y = x) ∨ (∃ s2, s = s2 ++ [x] ∧ l = p ++ y :: s2) := by
  induction s using List.reverseRecOn with
  | nil =>
    left
    have h2 := h
    have hL := congrArg List.getLast? h2
    rw [List.getLast?_concat, List.getLast?_concat] at hL
    injection hL with hL
    have hD := congrArg List.dropLast h2
    rw [List.dropLast_concat, show p ++ [y] = p ++ [y] from rfl,
      List.dropLast_concat] at hD
    exact ⟨rfl, hD.symm, hL.symm⟩
  | append_singleton s2 z _ =>
    right
    have h2 : l ++ [x] = (p ++ y :: s2) ++ [z] := by
      rw [h]
      simp
    have hL := congrArg List.getLast? h2
    rw [List.getLast?_concat, List.getLast?_concat] at hL
    injection hL with hL
    have hD := congrArg List.dropLast h2
    rw [List.dropLast_concat, List.dropLast_concat] at hD
    exact ⟨s2, by rw [hL], hD⟩

theorem SortedOK_append {g : Graph} {l : List Str} {x : Str}
    (hok : SortedOK g l)
    (hdeps : ∀ nx, mapGet g x = some nx → ∀ b ∈ nx.dependencies, b ∈ l) :
    SortedOK g (l ++ [x]) := by
  intro p y s h ny hy b hb
  rcases concat_eq_append_cons h with ⟨hs, hp, hxy⟩ | ⟨s2, hs, hl⟩
  · subst hp
    subst hxy
    exact hdeps ny hy b hb
  · exact hok p y s2 hl ny hy b hb

theorem mem_nodeDeps {g : Graph} {x b : Str} :
    b ∈ nodeDeps g x ↔ edgeRel g x b := by
  unfold nodeDeps edgeRel
  cases hget : mapGet g x with
  | none => simp
  | some n => simp

theorem setAdd_of_not_mem {l : List Str} {x : Str} (h : x ∉ l) :
    setAdd l x = l ++ [x] := by
  unfold setAdd
  rw [if_neg (by simpa using h)]

/-- The fold step of the inner `visit` loop, named for reasoning. -/
def tvStep (g : Graph) (fuel : Nat) (acc : Option (Bool × TopoState)) (depId : Str) :
    Option (Bool × TopoState) :=
  match acc with
  | none => none
  | some (false, s) => some (false, s)
  | some (true, s) => topoVisit g fuel depId s

theorem tv_step_none (g : Graph) (fuel : Nat) (d : Str) :
    tvStep g fuel none d = none := rfl

theorem tv_step_false (g : Graph) (fuel : Nat) (d : Str) (s0 : TopoState) :
    tvStep g fuel (some (false, s0)) d = some (false, s0) := rfl

theorem tv_step_true (g : Graph) (fuel : Nat) (d : Str) (s0 : TopoState) :
    tvStep g fuel (some (true, s0)) d = topoVisit g fuel d s0 := rfl

theorem topoVisit_succ (g : Graph) (fuel : Nat) (nodeId : Str) (st : TopoState) :
    topoVisit g (fuel+1) nodeId st =
      if setHas st.tempMark nodeId then some (false, st)
      else if setHas st.visited nodeId then some (true, st)
      else
        match (nodeDeps g nodeId).foldl (tvStep g fuel)
          (some (true, { st with tempMark := setAdd st.tempMark nodeId })) with
        | none => none
        | some (false, s) => some (false, s)
        | some (true, s) =>
          some (true, { visited := setAdd s.visited nodeId,
                        tempMark := setDelete s.tempMark nodeId,
                        sortedOrder := s.sortedOrder ++ [nodeId] }) := rfl

theorem foldl_tv_none (g : Graph) (fuel : Nat) : ∀ (ds : List Str),
    ds.foldl (tvStep g fuel) none = none := by
  intro ds
  induction ds with
  | nil => rfl
  | cons d rest ih => simpa [tv_step_none] using ih

theorem foldl_tv_false (g : Graph) (fuel : Nat) (s0 : TopoState) : ∀ (ds : List Str),
    ds.foldl (tvStep g fuel) (some (false, s0)) = some (false, s0) := by
  intro ds
  induction ds with
  | nil => rfl
  | cons d rest ih => simpa [tv_step_false] using ih

theorem topoVisit_post (g : Graph) : ∀ (fuel : Nat) (x : Str) (st st' : TopoState),
    topoVisit g fuel x st = some (true, st') → GoodSt g st →
    GoodSt g st' ∧ st'.tempMark = st.tempMark ∧ x ∈ st'.visited
    ∧ (∀ v ∈ st.visited, v ∈ st'.visited)
    ∧ (∃ t, st'.sortedOrder = st.sortedOrder ++ t) := by
  intro fuel
  induction fuel with
  | zero =>
    intro x st st' h
    simp [topoVisit] at h
  | succ fuel ih =>
    have fold_post : ∀ (ds : List Str) (s0 s1 : TopoState),
        ds.foldl (tvStep g fuel) (some (true, s0)) = some (true, s1) →
        GoodSt g s0 →
        GoodSt g s1 ∧ s1.tempMark = s0.tempMark ∧ (∀ b ∈ ds, b ∈ s1.visited)
        ∧ (∀ v ∈ s0.visited, v ∈ s1.visited)
        ∧ (∃ t, s1.sortedOrder = s0.sortedOrder ++ t) := by
      intro ds
      induction ds with
      | nil =>
        intro s0 s1 hf hG0
        rw [List.foldl_nil] at hf
        injection hf with hf
        injection hf with hf1 hf2
        subst hf2
        exact ⟨hG0, rfl, by simp, fun v hv => hv, ⟨[], by simp⟩⟩
      | cons d rest ihd =>
        intro s0 s1 hf hG0
        rw [List.foldl_cons, tv_step_true] at hf
        cases hres : topoVisit g fuel d s0 with
        | none =>
          rw [hres, foldl_tv_none] at hf
          simp at hf
        | some r =>
          obtain ⟨b, s2⟩ := r
          cases b with
          | false =>
            rw [hres, foldl_tv_false] at hf
            simp at hf
          | true =>
            rw [hres] at hf
            obtain ⟨hG2, htm2, hd2, hmono2, t2, hord2⟩ := ih d s0 s2 hres hG0
            obtain ⟨hG1, htm1, hds1, hmono1, t3, hord3⟩ := ihd s2 s1 hf hG2
            refine ⟨hG1, htm1.trans htm2, ?_, fun v hv => hmono1 v (hmono2 v hv),
              ⟨t2 ++ t3, by rw [hord3, hord2, List.append_assoc]⟩⟩
            intro b hb
            rcases List.mem_cons.mp hb with rfl | hb
            · exact hmono1 b hd2
            · exact hds1 b hb
    intro x st st' h hG
    rw [topoVisit_succ] at h
    by_cases htm : setHas st.tempMark x = true
    · rw [if_pos htm] at h
      simp at h
    · rw [if_neg htm] at h
      by_cases hv : setHas st.visited x = true
      · rw [if_pos hv] at h
        injection h with h
        injection h with h1 h2
        subst h2
        exact ⟨hG, rfl, (setHas_iff _ _).mp hv, fun v hv2 => hv2, ⟨[], by simp⟩⟩
      · rw [if_neg hv] at h
        have hxtm : x ∉ st.tempMark := by
          rw [← setHas_iff]
          simpa using htm
        have hxv : x ∉ st.visited := by
          rw [← setHas_iff]
          simpa using hv
        obtain ⟨hnd, hiff, hdisj, hclosed, hok⟩ := hG
        have hG1 : GoodSt g { st with tempMark := setAdd st.tempMark x } := by
          refine ⟨hnd, hiff, ?_, hclosed, hok⟩
          intro v hvv
          show v ∉ setAdd st.tempMark x
          rw [mem_setAdd]
          push_neg
          exact ⟨hdisj v hvv, fun e => hxv (e ▸ hvv)⟩
        cases hfold : (nodeDeps g x).foldl (tvStep g fuel)
            (some (true, { st with tempMark := setAdd st.tempMark x })) with
        | none =>
          rw [hfold] at h
          simp at h
        | some r =>
          obtain ⟨b, s⟩ := r
          cases b with
          | false =>
            rw [hfold] at h
            simp at h
          | true =>
            rw [hfold] at h
            injection h with h
            injection h with h1 h2
            obtain ⟨hGs, htms, hdss, hmonos, t, hords⟩ :=
              fold_post (nodeDeps g x) _ s hfold hG1
            obtain ⟨hnds, hiffs, hdisjs, hcloseds, hoks⟩ := hGs
            have hstm : s.tempMark = setAdd st.tempMark x := htms
            have hxs : x ∉ s.visited := by
              intro hxs
              exact hdisjs x hxs (by rw [hstm, mem_setAdd]; exact Or.inr rfl)
            have hxso : x ∉ s.sortedOrder := fun h2 => hxs ((hiffs x).mpr h2)
            have htm' : setDelete s.tempMark x = st.tempMark := by
              rw [hstm, setAdd_of_not_mem hxtm, setDelete_append_self hxtm]
            subst h2
            refine ⟨?_, htm', ?_, ?_, ?_⟩
            · refine ⟨?_, ?_, ?_, ?_, ?_⟩
              · show (s.sortedOrder ++ [x]).Nodup
                rw [List.nodup_append]
                refine ⟨hnds, List.nodup_singleton x, ?_⟩
                intro a ha hax
                rw [List.mem_singleton] at hax
                exact hxso (hax ▸ ha)
              · intro v
                show v ∈ setAdd s.visited x ↔ v ∈ s.sortedOrder ++ [x]
                rw [mem_setAdd, List.mem_append, List.mem_singleton, hiffs v]
              · intro v hvv
                show v ∉ setDelete s.tempMark x
                rw [htm']
                rcases mem_setAdd.mp hvv with hvv | rfl
                · intro hc
                  exact hdisjs v hvv (by rw [hstm, mem_setAdd]; exact Or.inl hc)
                · exact hxtm
              · intro v hvv nv hgetv b hb
                show b ∈ setAdd s.visited x
                rw [mem_setAdd]
                rcases mem_setAdd.mp hvv with hvv | rfl
                · exact Or.inl (hcloseds v hvv nv hgetv b hb)
                · refine Or.inl (hdss b ?_)
                  rw [mem_nodeDeps]
                  exact ⟨nv, hgetv, hb⟩
              · show SortedOK g (s.sortedOrder ++ [x])
                refine SortedOK_append hoks ?_
                intro nx hgetx b hb
                refine (hiffs b).mp (hdss b ?_)
                rw [mem_nodeDeps]
                exact ⟨nx, hgetx, hb⟩
            · show x ∈ setAdd s.visited x
              rw [mem_setAdd]
              exact Or.inr rfl
            · intro v hvv
              show v ∈ setAdd s.visited x
              rw [mem_setAdd]
              exact Or.inl (hmonos v hvv)
            · exact ⟨t ++ [x], by show s.sortedOrder ++ [x] = _; rw [hords, List.append_assoc]⟩

theorem allDeps_cons (e : Str × DepNode) (rest : Graph) :
    allDeps (e :: rest) = e.2.dependencies ++ allDeps rest := by
  simp [allDeps]

theorem depsSum (g : Graph) : ∀ init : Nat,
    g.foldl (fun n e => n + e.2.dependencies.length) init
      = init + (allDeps g).length := by
  induction g with
  | nil => intro init; simp [allDeps]
  | cons e rest ih =>
    intro init
    rw [List.foldl_cons, ih, allDeps_cons]
    simp
    omega

theorem idU_length (g : Graph) : (idU g).length + 1 = topoFuel g := by
  unfold idU topoFuel
  rw [depsSum g 0]
  simp [mapKeys]

theorem GoodSt_init (g : Graph) : GoodSt g ⟨[], [], []⟩ :=
  ⟨List.nodup_nil, by simp, by simp, by simp, SortedOK_nil g⟩

theorem topoVisit_true (g : Graph) (hacy : ¬ hasCycle g) :
    ∀ (fuel : Nat) (x : Str) (st : TopoState),
    GoodSt g st →
    (∀ t ∈ st.tempMark, Relation.TransGen (edgeRel g) t x) →
    st.tempMark.Nodup →
    (∀ t ∈ st.tempMark, t ∈ idU g) →
    x ∈ idU g →
    (idU g).length + 1 ≤ fuel + st.tempMark.length →
    ∃ st', topoVisit g fuel x st = some (true, st') := by
  intro fuel
  induction fuel with
  | zero =>
    intro x st hG htgen hnodup hsub hx hfuel
    exfalso
    have := nodup_subset_length hnodup hsub
    omega
  | succ fuel ih =>
    intro x st hG htgen hnodup hsub hx hfuel
    rw [topoVisit_succ]
    by_cases htm : setHas st.tempMark x = true
    · exact absurd ⟨x, htgen x ((setHas_iff _ _).mp htm)⟩ hacy
    · rw [if_neg htm]
      by_cases hv : setHas st.visited x = true
      · rw [if_pos hv]
        exact ⟨st, rfl⟩
      · rw [if_neg hv]
        have hxtm : x ∉ st.tempMark := by
          rw [← setHas_iff]
          simpa using htm
        have hxv : x ∉ st.visited := by
          rw [← setHas_iff]
          simpa using hv
        obtain ⟨hnd, hiff, hdisj, hclosed, hok⟩ := hG
        have hG1 : GoodSt g { st with tempMark := setAdd st.tempMark x } := by
          refine ⟨hnd, hiff, ?_, hclosed, hok⟩
          intro v hvv
          show v ∉ setAdd st.tempMark x
          rw [mem_setAdd]
          push_neg
          exact ⟨hdisj v hvv, fun e => hxv (e ▸ hvv)⟩
        have hnodup1 : (setAdd st.tempMark x).Nodup := by
          rw [setAdd_of_not_mem hxtm, List.nodup_append]
          refine ⟨hnodup, List.nodup_singleton x, ?_⟩
          intro t ht htx
          rw [List.mem_singleton] at htx
          exact hxtm (htx ▸ ht)
        have hsub1 : ∀ t ∈ setAdd st.tempMark x, t ∈ idU g := by
          intro t ht
          rcases mem_setAdd.mp ht with ht | rfl
          · exact hsub t ht
          · exact hx
        have hlen1 : (setAdd st.tempMark x).length = st.tempMark.length + 1 := by
          rw [setAdd_of_not_mem hxtm]
          simp
        have fold_true : ∀ (ds : List Str), (∀ b ∈ ds, edgeRel g x b) →
            ∀ s0, GoodSt g s0 → s0.tempMark = setAdd st.tempMark x →
            ∃ s1, ds.foldl (tvStep g fuel) (some (true, s0)) = some (true, s1) := by
          intro ds
          induction ds with
          | nil =>
            intro _ s0 _ _
            exact ⟨s0, rfl⟩
          | cons d rest ihd =>
            intro hedges s0 hG0 htm0
            rw [List.foldl_cons, tv_step_true]
            have hd : edgeRel g x d := hedges d (by simp)
            have hcall : ∃ s2, topoVisit g fuel d s0 = some (true, s2) := by
              refine ih d s0 hG0 ?_ ?_ ?_ ?_ ?_
              · intro t ht
                rw [htm0] at ht
                rcases mem_setAdd.mp ht with ht | rfl
                · exact (htgen t ht).tail hd
                · exact Relation.TransGen.single hd
              · rw [htm0]
                exact hnodup1
              · rw [htm0]
                exact hsub1
              · exact mem_idU_of_edge hd
              · rw [htm0, hlen1]
                omega
            obtain ⟨s2, hs2⟩ := hcall
            rw [hs2]
            obtain ⟨hG2, htm2, _, _, _⟩ := topoVisit_post g fuel d s0 s2 hs2 hG0
            exact ihd (fun b hb => hedges b (by simp [hb])) s2 hG2 (htm2.trans htm0)
        obtain ⟨s1, hs1⟩ := fold_true (nodeDeps g x) (fun b hb => mem_nodeDeps.mp hb)
          { st with tempMark := setAdd st.tempMark x } hG1 rfl
        rw [hs1]
        exact ⟨_, rfl⟩

theorem topoVisit_nonone (g : Graph) : ∀ (fuel : Nat) (x : Str) (st : TopoState),
    GoodSt g st →
    st.tempMark.Nodup →
    (∀ t ∈ st.tempMark, t ∈ idU g) →
    x ∈ idU g →
    (idU g).length + 1 ≤ fuel + st.tempMark.length →
    topoVisit g fuel x st ≠ none := by
  intro fuel
  induction fuel with
  | zero =>
    intro x st hG hnodup hsub hx hfuel
    exfalso
    have := nodup_subset_length hnodup hsub
    omega
  | succ fuel ih =>
    intro x st hG hnodup hsub hx hfuel
    rw [topoVisit_succ]
    by_cases htm : setHas st.tempMark x = true
    · rw [if_pos htm]
      simp
    · rw [if_neg htm]
      by_cases hv : setHas st.visited x = true
      · rw [if_pos hv]
        simp
      · rw [if_neg hv]
        have hxtm : x ∉ st.tempMark := by
          rw [← setHas_iff]
          simpa using htm
        have hxv : x ∉ st.visited := by
          rw [← setHas_iff]
          simpa using hv
        obtain ⟨hnd, hiff, hdisj, hclosed, hok⟩ := hG
        have hG1 : GoodSt g { st with tempMark := setAdd st.tempMark x } := by
          refine ⟨hnd, hiff, ?_, hclosed, hok⟩
          intro v hvv
          show v ∉ setAdd st.tempMark x
          rw [mem_setAdd]
          push_neg
          exact ⟨hdisj v hvv, fun e => hxv (e ▸ hvv)⟩
        have hnodup1 : (setAdd st.tempMark x).Nodup := by
          rw [setAdd_of_not_mem hxtm, List.nodup_append]
          refine ⟨hnodup, List.nodup_singleton x, ?_⟩
          intro t ht htx
          rw [List.mem_singleton] at htx
          exact hxtm (htx ▸ ht)
        have hsub1 : ∀ t ∈ setAdd st.tempMark x, t ∈ idU g := by
          intro t ht
          rcases mem_setAdd.mp ht with ht | rfl
          · exact hsub t ht
          · exact hx
        have hlen1 : (setAdd st.tempMark x).length = st.tempMark.length + 1 := by
          rw [setAdd_of_not_mem hxtm]
          simp
        have fold_nonone : ∀ (ds : List Str), (∀ b ∈ ds, b ∈ idU g) →
            ∀ s0, GoodSt g s0 → s0.tempMark = setAdd st.tempMark x →
            ds.foldl (tvStep g fuel) (some (true, s0)) ≠ none := by
          intro ds
          induction ds with
          | nil =>
            intro _ s0 _ _
            simp
          | cons d rest ihd =>
            intro hbs s0 hG0 htm0
            rw [List.foldl_cons, tv_step_true]
            cases hres : topoVisit g fuel d s0 with
            | none =>
              exfalso
              refine ih d s0 hG0 ?_ ?_ ?_ ?_ hres
              · rw [htm0]
                exact hnodup1
              · rw [htm0]
                exact hsub1
              · exact hbs d (by simp)
              · rw [htm0, hlen1]
                omega
            | some r =>
              obtain ⟨b, s2⟩ := r
              cases b with
              | false =>
                rw [foldl_tv_false]
                simp
              | true =>
                obtain ⟨hG2, htm2, _, _, _⟩ := topoVisit_post g fuel d s0 s2 hres hG0
                exact ihd (fun b hb => hbs b (by simp [hb])) s2 hG2 (htm2.trans htm0)
        cases hfold : (nodeDeps g x).foldl (tvStep g fuel)
            (some (true, { st with tempMark := setAdd st.tempMark x })) with
        | none =>
          exact absurd hfold (fold_nonone (nodeDeps g x)
            (fun b hb => mem_idU_of_edge (mem_nodeDeps.mp hb)) _ hG1 rfl)
        | some r =>
          obtain ⟨b, s⟩ := r
          cases b <;> simp

theorem indexOf_append_left {l1 l2 : List Str} {b : Str} (h : b ∈ l1) :
    (l1 ++ l2).indexOf b = l1.indexOf b := by
  induction l1 with
  | nil => cases h
  | cons c t ih =>
    by_cases hbc : c = b
    · subst hbc
      simp [List.indexOf_cons]
    · rcases List.mem_cons.mp h with rfl | hbt
      · exact absurd rfl hbc
      · simp only [List.cons_append, List.indexOf_cons]
        rw [show (c == b) = false from by simpa using hbc]
        simp [ih hbt]

theorem indexOf_append_self {p s : List Str} {a : Str} (h : a ∉ p) :
    (p ++ a :: s).indexOf a = p.length := by
  induction p with
  | nil => simp [List.indexOf_cons]
  | cons c t ih =>
    have hac : c ≠ a := fun e => h (by simp [e])
    simp only [List.cons_append, List.indexOf_cons]
    rw [show (c == a) = false from by simpa using hac]
    simp [ih (fun e => h (by simp [e]))]

theorem indexOf_lt_length_mem {p : List Str} {b : Str} (h : b ∈ p) :
    p.indexOf b < p.length := by
  induction p with
  | nil => cases h
  | cons c t ih =>
    by_cases hcb : c = b
    · subst hcb
      simp [List.indexOf_cons]
    · rcases List.mem_cons.mp h with rfl | hbt
      · exact absurd rfl hcb
      · simp only [List.indexOf_cons, List.length_cons]
        rw [show (c == b) = false from by simpa using hcb]
        simpa using ih hbt

theorem visited_pos_lt {g : Graph} {st : TopoState} (hG : GoodSt g st) :
    ∀ a b, edgeRel g a b → a ∈ st.visited →
      b ∈ st.visited ∧ st.sortedOrder.indexOf b < st.sortedOrder.indexOf a := by
  intro a b he ha
  obtain ⟨na, hget, hb⟩ := he
  obtain ⟨hnd, hiff, _, hclosed, hok⟩ := hG
  have hbv : b ∈ st.visited := hclosed a ha na hget b hb
  refine ⟨hbv, ?_⟩
  have hao : a ∈ st.sortedOrder := (hiff a).mp ha
  obtain ⟨p, s, hps⟩ := List.append_of_mem hao
  have hbp : b ∈ p := hok p a s hps na hget b hb
  have hanp : a ∉ p := by
    intro hap
    rw [hps] at hnd
    exact (List.nodup_append.mp hnd).2.2 hap (by simp)
  rw [hps, indexOf_append_left hbp, indexOf_append_self hanp]
  exact indexOf_lt_length_mem hbp

theorem transgen_pos_lt {g : Graph} {st : TopoState} (hG : GoodSt g st) :
    ∀ a c, Relation.TransGen (edgeRel g) a c → a ∈ st.visited →
      c ∈ st.visited ∧ st.sortedOrder.indexOf c < st.sortedOrder.indexOf a := by
  intro a c htg ha
  induction htg with
  | single h => exact visited_pos_lt hG _ _ h ha
  | tail htg2 h ihx =>
    obtain ⟨hbv, hlt1⟩ := ihx
    obtain ⟨hcv, hlt2⟩ := visited_pos_lt hG _ _ h hbv
    exact ⟨hcv, lt_trans hlt2 hlt1⟩

theorem no_cycle_in_visited {g : Graph} {st : TopoState} (hG : GoodSt g st)
    {x : Str} (hx : x ∈ st.visited) : ¬ Relation.TransGen (edgeRel g) x x := by
  intro htg
  obtain ⟨_, hlt⟩ := transgen_pos_lt hG x x htg hx
  exact lt_irrefl _ hlt

theorem to_step_true (g : Graph) (k : Str) (s0 : TopoState) :
    toStep g (some (true, s0)) k
      = (if ¬ setHas s0.visited k then topoVisit g (topoFuel g) k s0
         else some (true, s0)) := rfl

theorem foldl_to_none (g : Graph) : ∀ (ks : List Str),
    ks.foldl (toStep g) none = none := by
  intro ks
  induction ks with
  | nil => rfl
  | cons k rest ih => simpa [toStep] using ih

theorem foldl_to_false (g : Graph) (s0 : TopoState) : ∀ (ks : List Str),
    ks.foldl (toStep g) (some (false, s0)) = some (false, s0) := by
  intro ks
  induction ks with
  | nil => rfl
  | cons k rest ih => simpa [toStep] using ih

theorem outer_post (g : Graph) : ∀ (ks : List Str) (s0 s1 : TopoState),
    ks.foldl (toStep g) (some (true, s0)) = some (true, s1) → GoodSt g s0 →
    GoodSt g s1 ∧ s1.tempMark = s0.tempMark ∧ (∀ k ∈ ks, k ∈ s1.visited)
    ∧ (∀ v ∈ s0.visited, v ∈ s1.visited) := by
  intro ks
  induction ks with
  | nil =>
    intro s0 s1 hf hG0
    rw [List.foldl_nil] at hf
    injection hf with hf
    injection hf with hf1 hf2
    subst hf2
    exact ⟨hG0, rfl, by simp, fun v hv => hv⟩
  | cons k rest ih =>
    intro s0 s1 hf hG0
    rw [List.foldl_cons, to_step_true] at hf
    by_cases hv : setHas s0.visited k = true
    · rw [if_neg (by simpa using hv)] at hf
      obtain ⟨hG1, htm1, hks1, hmono1⟩ := ih s0 s1 hf hG0
      refine ⟨hG1, htm1, ?_, hmono1⟩
      intro k2 hk2
      rcases List.mem_cons.mp hk2 with rfl | hk2
      · exact hmono1 k2 ((setHas_iff _ _).mp hv)
      · exact hks1 k2 hk2
    · rw [if_pos (by simpa using hv)] at hf
      cases hres : topoVisit g (topoFuel g) k s0 with
      | none =>
        rw [hres, foldl_to_none] at hf
        simp at hf
      | some r =>
        obtain ⟨b, s2⟩ := r
        cases b with
        | false =>
          rw [hres, foldl_to_false] at hf
          simp at hf
        | true =>
          rw [hres] at hf
          obtain ⟨hG2, htm2, hk2, hmono2, _⟩ :=
            topoVisit_post g (topoFuel g) k s0 s2 hres hG0
          obtain ⟨hG1, htm1, hks1, hmono1⟩ := ih s2 s1 hf hG2
          refine ⟨hG1, htm1.trans htm2, ?_, fun v hv2 => hmono1 v (hmono2 v hv2)⟩
          intro k2 hk2m
          rcases List.mem_cons.mp hk2m with rfl | hk2m
          · exact hmono1 k2 hk2
          · exact hks1 k2 hk2m

theorem outer_true (g : Graph) (hacy : ¬ hasCycle g) : ∀ (ks : List Str),
    (∀ k ∈ ks, k ∈ idU g) → ∀ s0, GoodSt g s0 → s0.tempMark = [] →
    ∃ s1, ks.foldl (toStep g) (some (true, s0)) = some (true, s1) := by
  intro ks
  induction ks with
  | nil =>
    intro _ s0 _ _
    exact ⟨s0, rfl⟩
  | cons k rest ih =>
    intro hks s0 hG0 htm0
    rw [List.foldl_cons, to_step_true]
    by_cases hv : setHas s0.visited k = true
    · rw [if_neg (by simpa using hv)]
      exact ih (fun k2 hk2 => hks k2 (by simp [hk2])) s0 hG0 htm0
    · rw [if_pos (by simpa using hv)]
      have hcall : ∃ s2, topoVisit g (topoFuel g) k s0 = some (true, s2) := by
        refine topoVisit_true g hacy (topoFuel g) k s0 hG0 ?_ ?_ ?_ ?_ ?_
        · intro t ht
          rw [htm0] at ht
          cases ht
        · rw [htm0]
          exact List.nodup_nil
        · intro t ht
          rw [htm0] at ht
          cases ht
        · exact hks k (by simp)
        · rw [htm0, ← idU_length g]
          simp
      obtain ⟨s2, hs2⟩ := hcall
      rw [hs2]
      obtain ⟨hG2, htm2, _, _, _⟩ := topoVisit_post g (topoFuel g) k s0 s2 hs2 hG0
      exact ih (fun k2 hk2 => hks k2 (by simp [hk2])) s2 hG2 (htm2.trans htm0)

theorem outer_nonone (g : Graph) : ∀ (ks : List Str),
    (∀ k ∈ ks, k ∈ idU g) → ∀ s0, GoodSt g s0 → s0.tempMark = [] →
    ks.foldl (toStep g) (some (true, s0)) ≠ none := by
  intro ks
  induction ks with
  | nil =>
    intro _ s0 _ _
    simp
  | cons k rest ih =>
    intro hks s0 hG0 htm0
    rw [List.foldl_cons, to_step_true]
    by_cases hv : setHas s0.visited k = true
    · rw [if_neg (by simpa using hv)]
      exact ih (fun k2 hk2 => hks k2 (by simp [hk2])) s0 hG0 htm0
    · rw [if_pos (by simpa using hv)]
      cases hres : topoVisit g (topoFuel g) k s0 with
      | none =>
        exfalso
        refine topoVisit_nonone g (topoFuel g) k s0 hG0 ?_ ?_ ?_ ?_ hres
        · rw [htm0]
          exact List.nodup_nil
        · intro t ht
          rw [htm0] at ht
          cases ht
        · exact hks k (by simp)
        · rw [htm0, ← idU_length g]
          simp
      | some r =>
        obtain ⟨b, s2⟩ := r
        cases b with
        | false =>
          rw [foldl_to_false]
          simp
        | true =>
          obtain ⟨hG2, htm2, _, _, _⟩ :=
            topoVisit_post g (topoFuel g) k s0 s2 hres hG0
          exact ih (fun k2 hk2 => hks k2 (by simp [hk2])) s2 hG2 (htm2.trans htm0)

theorem transgen_first_edge {g : Graph} : ∀ {a c : Str},
    Relation.TransGen (edgeRel g) a c → ∃ b, edgeRel g a b := by
  intro a c htg
  induction htg with
  | single h => exact ⟨_, h⟩
  | tail _ _ ihx => exact ihx

set_option maxHeartbeats 1000000 in
/-- C7: the DFS-based topological sort is correct.  On every dependency
graph without a (directed dependency) cycle it succeeds and returns an
order that lists each registered id exactly once (it is duplicate-free
and contains every key) and in which every diagram's dependencies appear
strictly before the diagram itself; on every graph with a cycle it
returns `success := false` carrying an error. -/
theorem topo_sort_characterization (g : Graph) :
    (¬ hasCycle g →
      ((getTopologicalOrder g).success = true)
      ∧ (getTopologicalOrder g).sortedOrder.Nodup
      ∧ (∀ k ∈ mapKeys g, k ∈ (getTopologicalOrder g).sortedOrder)
      ∧ (∀ p x s, (getTopologicalOrder g).sortedOrder = p ++ x :: s →
          ∀ nx, mapGet g x = some nx → ∀ b ∈ nx.dependencies, b ∈ p))
    ∧ (hasCycle g →
      ((getTopologicalOrder g).success = false)
      ∧ ((getTopologicalOrder g).error.isSome = true)) := by
  constructor
  · intro hacy
    obtain ⟨sF, hsF⟩ := outer_true g hacy (mapKeys g)
      (fun k hk => mem_idU_of_key hk) ⟨[], [], []⟩ (GoodSt_init g) rfl
    obtain ⟨hGF, _, hkeys, _⟩ :=
      outer_post g (mapKeys g) ⟨[], [], []⟩ sF hsF (GoodSt_init g)
    have hres : getTopologicalOrder g
        = { success := true, sortedOrder := sF.sortedOrder, error := none } := by
      unfold getTopologicalOrder
      rw [hsF]
    rw [hres]
    obtain ⟨hnd, hiff, _, _, hok⟩ := hGF
    exact ⟨rfl, hnd, fun k hk => (hiff k).mp (hkeys k hk),
      fun p x s hdec nx hget b hb => hok p x s hdec nx hget b hb⟩
  · rintro ⟨a, htg⟩
    cases hloop : (mapKeys g).foldl (toStep g) (some (true, ⟨[], [], []⟩)) with
    | none =>
      exact absurd hloop (outer_nonone g (mapKeys g)
        (fun k hk => mem_idU_of_key hk) ⟨[], [], []⟩ (GoodSt_init g) rfl)
    | some r =>
      obtain ⟨b, sF⟩ := r
      cases b with
      | false =>
        have hres : getTopologicalOrder g
            = { success := false, sortedOrder := [],
                error := some { type := ErrType.nestedError,
                                message := str "Circular dependency detected during topological sort" } } := by
          unfold getTopologicalOrder
          rw [hloop]
        rw [hres]
        exact ⟨rfl, rfl⟩
      | true =>
        exfalso
        obtain ⟨hGF, _, hkeys, _⟩ :=
          outer_post g (mapKeys g) ⟨[], [], []⟩ sF hloop (GoodSt_init g)
        obtain ⟨b0, hb0⟩ := transgen_first_edge htg
        obtain ⟨na, hget, _⟩ := hb0
        have haK : a ∈ mapKeys g := mapGet_some_mem hget
        exact no_cycle_in_visited hGF (hkeys a haK) htg

/-- A one-node graph with no edges. -/
def gAcyc : Graph := [(str "a", { id := str "a", dependencies := [], dependents := [] })]

/-- A one-node graph whose node depends on itself. -/
def gCyc : Graph := [(str "a", { id := str "a", dependencies := [str "a"], dependents := [str "a"] })]

/-- Witness for C7, at a concrete acyclic graph and a concrete cyclic
graph.  Acyclicity of the first graph is proved by showing it has no
edges at all; the cycle of the second is the self-edge of `a`. -/
theorem topo_sort_characterization_witness :
    (¬ hasCycle gAcyc
     ∧ ((getTopologicalOrder gAcyc).success = true)
     ∧ (getTopologicalOrder gAcyc).sortedOrder.Nodup)
    ∧ (hasCycle gCyc
       ∧ ((getTopologicalOrder gCyc).success = false)) := by
  have hedge : ∀ x y, ¬ edgeRel gAcyc x y := by
    rintro x y ⟨n, hg, hb⟩
    rw [show gAcyc = [(str "a", { id := str "a", dependencies := [], dependents := [] })] from rfl, mapGet_cons] at hg
    by_cases hx : x = str "a"
    · rw [if_pos hx] at hg
      injection hg with hg
      subst hg
      simp at hb
    · rw [if_neg hx, mapGet_nil] at hg
      cases hg
  have hacy : ¬ hasCycle gAcyc := by
    rintro ⟨x, htg⟩
    cases htg with
    | single h => exact hedge _ _ h
    | tail _ h => exact hedge _ _ h
  have hcyc : hasCycle gCyc :=
    ⟨str "a", Relation.TransGen.single
      ⟨{ id := str "a", dependencies := [str "a"], dependents := [str "a"] },
        by rw [show gCyc = [(str "a", { id := str "a", dependencies := [str "a"], dependents := [str "a"] })] from rfl, mapGet_cons, if_pos rfl], by simp⟩⟩
  obtain ⟨h1, h2, h3, _⟩ := (topo_sort_characterization gAcyc).1 hacy
  obtain ⟨h4, _⟩ := (topo_sort_characterization gCyc).2 hcyc
  exact ⟨⟨hacy, h1, h2⟩, ⟨hcyc, h4⟩⟩

/-! ## Claim C9 -/

set_option maxRecDepth 8000 in
/-- C9 (counterexample): a missing-reference failure is thrown as a plain
`Error`, and the catch branch for plain errors returns an *empty*
dependency list — even though a nonempty dependency report was buildable
from the definitions extracted in the same pass (definition `a` is valid
and registered). -/
theorem missing_ref_failure_drops_buildable_report :
    ((parseNestedSyntax emptyState missingRefWithDefSource).1.success = false)
    ∧ (resultErrMsg (parseNestedSyntax emptyState missingRefWithDefSource).1
        = str "Referenced diagram not found: zzz")
    ∧ ((parseNestedSyntax emptyState missingRefWithDefSource).1.dependencies = [])
    ∧ (mapGet (extractDiagramDefinitions missingRefWithDefSource) (str "a")
        = some (str "flowchart LR\n  X --> Y"))
    ∧ ((buildDependencyGraph
          (extractDiagramDefinitions missingRefWithDefSource)).map (·.2) ≠ []) := by
  refine ⟨by decide, by decide, by decide, by decide, by decide⟩

/-- C9 (amended): what a failing pass actually reports depends on how the
fatal condition is surfaced.  A condition thrown as a plain `Error`
(missing reference, depth exceeded) is caught by the generic branch and
returns an empty dependency list; a condition thrown as a `DiagramError`
object literal (inline cycle) returns the *previous* pass's stored graph;
only the whole-graph cycle check, which runs after `buildDependencyGraph`,
returns the report built from this pass's definitions.  Accumulated
warnings are carried in every case. -/
theorem fatal_failure_dependency_report (st : ProcState) (code : Str) :
    (∀ msg ws t,
      detectDiagramType (extractMainDiagramContent code) = some t →
      processNestedReferences (extractDiagramDefinitions code) 12
          (extractMainDiagramContent code) [] 0 []
        = (Except.error (JsThrown.jsError msg), ws) →
      (parseNestedSyntax st code).1.success = false
      ∧ (parseNestedSyntax st code).1.dependencies = []
      ∧ (parseNestedSyntax st code).1.warnings = ws)
    ∧ (∀ e ws t,
      detectDiagramType (extractMainDiagramContent code) = some t →
      processNestedReferences (extractDiagramDefinitions code) 12
          (extractMainDiagramContent code) [] 0 []
        = (Except.error (JsThrown.jsDiagramError e), ws) →
      (parseNestedSyntax st code).1.success = false
      ∧ (parseNestedSyntax st code).1.dependencies = st.dependencyGraph.map (·.2)
      ∧ (parseNestedSyntax st code).1.warnings = ws)
    ∧ (∀ pr ws cyc t,
      detectDiagramType (extractMainDiagramContent code) = some t →
      processNestedReferences (extractDiagramDefinitions code) 12
          (extractMainDiagramContent code) [] 0 []
        = (Except.ok pr, ws) →
      detectCircularReferences (buildDependencyGraph (extractDiagramDefinitions code))
        = some cyc →
      (parseNestedSyntax st code).1.success = false
      ∧ (parseNestedSyntax st code).1.dependencies
          = (buildDependencyGraph (extractDiagramDefinitions code)).map (·.2)
      ∧ (parseNestedSyntax st code).1.warnings = ws) := by
  refine ⟨?_, ?_, ?_⟩
  · intro msg ws t hdet hproc
    simp only [parseNestedSyntax]
    rw [hdet, hproc]
    exact ⟨rfl, rfl, rfl⟩
  · intro e ws t hdet hproc
    simp only [parseNestedSyntax]
    rw [hdet, hproc]
    exact ⟨rfl, rfl, rfl⟩
  · intro pr ws cyc t hdet hproc hcyc
    simp only [parseNestedSyntax]
    rw [hdet, hproc]
    rw [hcyc]
    exact ⟨rfl, rfl, rfl⟩

set_option maxRecDepth 8000 in
/-- Witness for C9 (amended), at the concrete missing-reference source:
the hypotheses of the plain-`Error` branch hold there, and the failing
result indeed reports an empty dependency list. -/
theorem fatal_failure_dependency_report_witness :
    (detectDiagramType (extractMainDiagramContent missingRefWithDefSource)
        = some (str "flowchart"))
    ∧ (processNestedReferences (extractDiagramDefinitions missingRefWithDefSource) 12
          (extractMainDiagramContent missingRefWithDefSource) [] 0 []
        = (Except.error (JsThrown.jsError
            (str "Referenced diagram not found: zzz")), []))
    ∧ ((parseNestedSyntax emptyState missingRefWithDefSource).1.success = false
       ∧ (parseNestedSyntax emptyState missingRefWithDefSource).1.dependencies = []
       ∧ (parseNestedSyntax emptyState missingRefWithDefSource).1.warnings = []) :=
  ⟨by decide, by rfl,
    (fatal_failure_dependency_report emptyState missingRefWithDefSource).1
      (str "Referenced diagram not found: zzz") [] (str "flowchart")
      (by decide) (by rfl)⟩

/-- Witness for C6: the invariants hold at the concrete registry `regW`,
whose key list is duplicate-free by computation. -/
theorem buildDependencyGraph_invariants_witness :
    (mapKeys regW).Nodup ∧
    ((∀ id ∈ mapKeys regW,
        ∃ node, mapGet (buildDependencyGraph regW) id = some node)
     ∧ (∀ a na b nb, mapGet (buildDependencyGraph regW) a = some na →
         b ∈ na.dependencies → mapGet (buildDependencyGraph regW) b = some nb →
         a ∈ nb.dependents)) :=
  ⟨by decide, buildDependencyGraph_invariants regW (by decide)⟩

end NDP
